import Mathlib

/-!
# sqlc-query-gen: the generator of `api/gen.go`

A shallow embedding of `api/gen.go` together with the library routines it
calls (`lo.GroupBy`, `lo.Map`, `lo.Assign`, `strcase.ToCamel`,
`strcase.ToLowerCamel`, `bytes.Trim`, the `cases.Title(language.Und,
cases.NoLower)` caser), followed by the properties of the parameter builder,
the render/write pipeline and the helper registry.

Conventions.
* A Go `string` that comes from the database is UTF-8 text; it is a Lean
  `String`, and `[]byte(s)` is its UTF-8 encoding (`goBytes`).
* A byte is a `Nat` below 256; byte arithmetic is written with `% 256`.
* A Go `map[K]V` is the list of its entries, keys pairwise distinct.  Go does
  not fix the order in which `range` visits a map, so every function that
  ranges over a map takes the order as an argument (a function returning a
  permutation of the entries).
* A file is named by the image of a path under `System.fileOf`; several path
  strings may name one file.
-/

namespace SqlcQueryGen

/-! ## Go maps -/

/-- A Go `map[K]V` as the list of its entries. -/
abbrev GoMap (κ : Type) (ν : Type) := List (κ × ν)

namespace GoMap

variable {κ ν : Type} [DecidableEq κ]

/-- The lookup `m[k]` with the comma-ok result. -/
def get? : GoMap κ ν → κ → Option ν
  | [], _ => none
  | (k', v) :: rest, k => if k' = k then some v else get? rest k

/-- The assignment `m[k] = v`. -/
def set : GoMap κ ν → κ → ν → GoMap κ ν
  | [], k, v => [(k, v)]
  | (k', v') :: rest, k, v => if k' = k then (k, v) :: rest else (k', v') :: set rest k v

/-- Well-formed maps hold each key once. -/
def WF (m : GoMap κ ν) : Prop := (m.map Prod.fst).Nodup

end GoMap

/-- An order in which `range` may visit maps: every map's entries, permuted. -/
def IsRangeOrder {κ ν : Type} (order : GoMap κ ν → GoMap κ ν) : Prop :=
  ∀ m, (order m).Perm m

/-! ## samber/lo -/

/-- `lo.GroupBy`: each item is appended to the slice stored under its key. -/
def loGroupBy {α κ : Type} [DecidableEq κ] (collection : List α) (iteratee : α → κ) :
    GoMap κ (List α) :=
  collection.foldl
    (fun result item =>
      let key := iteratee item
      result.set key ((result.get? key).getD [] ++ [item]))
    []

/-- `lo.Map`: the iteratee applied to every item and its index, in order. -/
def loMap {α β : Type} (collection : List α) (iteratee : α → Nat → β) : List β :=
  collection.mapIdx (fun i item => iteratee item i)

/-! ## Strings and bytes -/

/-- The UTF-8 encoding of one code point. -/
def utf8EncodeChar (c : Char) : List Nat :=
  let n := c.toNat
  if n < 0x80 then [n]
  else if n < 0x800 then [0xC0 + n / 64, 0x80 + n % 64]
  else if n < 0x10000 then [0xE0 + n / 4096, 0x80 + n / 64 % 64, 0x80 + n % 64]
  else [0xF0 + n / 262144, 0x80 + n / 4096 % 64, 0x80 + n / 64 % 64, 0x80 + n % 64]

/-- The conversion `[]byte(s)`. -/
def goBytes (s : String) : List Nat := s.data.flatMap utf8EncodeChar

/-- The string made of ASCII bytes, as `strings.Builder.String` returns it
when only ASCII bytes were written. -/
def asciiString (bs : List Nat) : String := ⟨bs.map Char.ofNat⟩

/-- `unicode.IsSpace`. -/
def unicodeIsSpace (c : Char) : Bool :=
  let r := c.toNat
  if r ≤ 0xFF then
    r == 0x09 || r == 0x0A || r == 0x0B || r == 0x0C || r == 0x0D || r == 0x20
      || r == 0x85 || r == 0xA0
  else
    r == 0x1680 || (0x2000 ≤ r && r ≤ 0x200A) || r == 0x2028 || r == 0x2029
      || r == 0x202F || r == 0x205F || r == 0x3000

/-- `strings.TrimSpace`: leading and trailing white space removed. -/
def stringsTrimSpace (s : String) : String :=
  ⟨((s.data.dropWhile unicodeIsSpace).reverse.dropWhile unicodeIsSpace).reverse⟩

/-! ## iancoleman/strcase -/

/-- The acronym registry of strcase; nothing in this program configures it. -/
def uppercaseAcronym : List (String × String) := []

/-- The case adjustment of the byte `v` at index `i` in the loop of
`toCamelInitCase`. -/
def caseByte (hasAcronym : Bool) (v : Nat) (i : Nat) (capNext prevIsCap : Bool) : Nat :=
  let vIsCap := decide (65 ≤ v ∧ v ≤ 90)
  let vIsLow := decide (97 ≤ v ∧ v ≤ 122)
  if capNext then
    if vIsLow then ((v + 65) % 256 + 256 - 97) % 256 else v
  else if i = 0 then
    if vIsCap then ((v + 97) % 256 + 256 - 65) % 256 else v
  else if prevIsCap && vIsCap && !hasAcronym then
    ((v + 97) % 256 + 256 - 65) % 256
  else v

/-- The byte loop of `toCamelInitCase` (strcase v0.3.0): `i` is the index of
the next byte, `n` the bytes written so far. -/
def toCamelLoop (hasAcronym : Bool) :
    List Nat → Nat → Bool → Bool → List Nat → List Nat
  | [], _, _, _, n => n
  | v :: rest, i, capNext, prevIsCap, n =>
    let vIsCap := decide (65 ≤ v ∧ v ≤ 90)
    let vIsLow := decide (97 ≤ v ∧ v ≤ 122)
    let v1 := caseByte hasAcronym v i capNext prevIsCap
    if vIsCap || vIsLow then
      toCamelLoop hasAcronym rest (i + 1) false vIsCap (n ++ [v1])
    else if 48 ≤ v1 ∧ v1 ≤ 57 then
      toCamelLoop hasAcronym rest (i + 1) true vIsCap (n ++ [v1])
    else
      toCamelLoop hasAcronym rest (i + 1)
        (v1 == 95 || v1 == 32 || v1 == 45 || v1 == 46) vIsCap n

/-- `toCamelInitCase` of strcase. -/
def toCamelInitCase (s : String) (initCase : Bool) : String :=
  let s := stringsTrimSpace s
  if s = "" then s
  else
    let a := GoMap.get? uppercaseAcronym s
    let hasAcronym := a.isSome
    let s := a.getD s
    asciiString (toCamelLoop hasAcronym (goBytes s) 0 initCase false [])

/-- `strcase.ToCamel`. -/
def ToCamel (s : String) : String := toCamelInitCase s true

/-- `strcase.ToLowerCamel`. -/
def ToLowerCamel (s : String) : String := toCamelInitCase s false

/-! ## golang.org/x/text/cases -/

/-- The loop of the title caser built with `cases.NoLower`: the first cased
letter of a word is title-cased, every other rune is copied, a word-breaking
rune ends the word.  ASCII letters are the cased runes; digits and `_` are
uncased letters of a word; every other rune is taken as a word break, which is
exact for the strings of ASCII letters and digits that `ToCamel` returns. -/
def titleLoop : List Char → Bool → List Char
  | [], _ => []
  | c :: rest, isMidWord =>
    let r := c.toNat
    if (65 ≤ r ∧ r ≤ 90) ∨ (97 ≤ r ∧ r ≤ 122) then
      if isMidWord then c :: titleLoop rest true
      else (if 97 ≤ r ∧ r ≤ 122 then Char.ofNat (r - 32) else c) :: titleLoop rest true
    else if (48 ≤ r ∧ r ≤ 57) ∨ r = 95 then c :: titleLoop rest isMidWord
    else c :: titleLoop rest false

/-- `cases.Title(language.Und, cases.NoLower).String`. -/
def caserTitleNoLower (s : String) : String := ⟨titleLoop s.data false⟩

/-! ## The parameter builder -/

/-- `db.GetColumnDefinitionsRow`: one row of the column query. -/
structure GetColumnDefinitionsRow where
  TableName : String
  ColumnName : String
  DataType : String
  IsNullable : Bool
  deriving DecidableEq, Repr

/-- `ColumnParam`. -/
structure ColumnParam where
  ColumnName : String
  ColumnNameCamel : String
  ColumnType : String
  IsNullable : Bool
  deriving DecidableEq, Repr

/-- `TableParam`. -/
structure TableParam where
  TableName : String
  TableNameCamelFU : String
  Columns : List ColumnParam
  deriving DecidableEq, Repr

/-- `Param`. -/
structure Param where
  TableParams : List TableParam
  deriving DecidableEq, Repr

/-- The closure passed to `lo.Map` in `columnDefsToTemplateParam`. -/
def columnParamOf (columnDef : GetColumnDefinitionsRow) (_idx : Nat) : ColumnParam :=
  { ColumnName := columnDef.ColumnName
    ColumnNameCamel := ToLowerCamel columnDef.ColumnName
    ColumnType := columnDef.DataType
    IsNullable := columnDef.IsNullable }

/-- `columnDefsToTemplateParam`; `rangeOrder` is the order in which the
grouped map is ranged over. -/
def columnDefsToTemplateParam
    (rangeOrder : GoMap String (List GetColumnDefinitionsRow) →
      GoMap String (List GetColumnDefinitionsRow))
    (columnDefs : List GetColumnDefinitionsRow) : Param :=
  let tableToColumnDefs := loGroupBy columnDefs (fun c => c.TableName)
  (rangeOrder tableToColumnDefs).foldl
    (fun param entry =>
      { TableParams := param.TableParams ++
          [{ TableName := entry.1
             TableNameCamelFU := caserTitleNoLower (ToCamel entry.1)
             Columns := loMap entry.2 columnParamOf }] })
    { TableParams := [] }


/-! ## The helper registry -/

/-- The values a `template.FuncMap` of this program holds: the three built-in
helpers and the functions a caller supplies, told apart by a number. -/
inductive Helper where
  | stringsToUpper
  | caserTitleNoLowerString
  | addNum
  | supplied (id : Nat)
  deriving DecidableEq, Repr

/-- `addNum`, on 64-bit two's complement integers. -/
def addNum (num : Int) (a : Int) : Int :=
  (num + a + 2 ^ 63) % 2 ^ 64 - 2 ^ 63

/-- `template.FuncMap`. -/
abbrev FuncMap := GoMap String Helper

/-- The state of the Go program that the registry code touches: the allocated
`template.FuncMap` objects, a reference being an index into `maps`, and the
number of `range` statements over such maps executed so far. -/
structure GoState where
  maps : List FuncMap
  ranges : Nat
  deriving DecidableEq, Repr

/-- The map a reference points to; the nil map has no entries. -/
def GoState.read (st : GoState) (ref : Nat) : FuncMap := (st.maps.get? ref).getD []

/-- The initial value of the package variable `defaultFuncMap`. -/
def defaultFuncMap : FuncMap :=
  [("ToUpper", Helper.stringsToUpper),
   ("FirstUpper", Helper.caserTitleNoLowerString),
   ("AddNum", Helper.addNum)]

/-- The reference held by the package variable `defaultFuncMap`: the first map
allocated. -/
def defaultFuncMapRef : Nat := 0

/-- The program state once package variables are initialised, with the maps
`others` allocated by the callers. -/
def initialState (others : List FuncMap) : GoState :=
  { maps := defaultFuncMap :: others, ranges := 0 }

/-- `Generator`: `FuncMaps` is a reference to a map. -/
structure Generator where
  FuncMaps : Nat
  deriving DecidableEq, Repr

/-- The inner loop of `lo.Assign`: every entry of one map is stored in `out`. -/
def assignEntries (out : FuncMap) (entries : FuncMap) : FuncMap :=
  entries.foldl (fun o e => o.set e.1 e.2) out

/-- The outer loop of `lo.Assign` over the argument maps; `orders n` is the
order of the `n`-th `range` statement. -/
def assignLoop (orders : Nat → FuncMap → FuncMap) :
    List Nat → GoState → FuncMap → GoState × FuncMap
  | [], st, out => (st, out)
  | ref :: rest, st, out =>
    assignLoop orders rest { st with ranges := st.ranges + 1 }
      (assignEntries out (orders st.ranges (st.read ref)))

/-- `lo.Assign`: a fresh map is allocated, filled from the argument maps from
left to right, and returned. -/
def loAssign (orders : Nat → FuncMap → FuncMap) (st : GoState) (maps : List Nat) :
    GoState × Nat :=
  let r := assignLoop orders maps st []
  ({ r.1 with maps := r.1.maps ++ [r.2] }, r.1.maps.length)

/-- `GeneratorOption`: a function that updates the generator. -/
abbrev GeneratorOption := (Nat → FuncMap → FuncMap) → GoState → Generator → GoState × Generator

/-- `WithFuncMap`. -/
def WithFuncMap (funcMap : Nat) : GeneratorOption :=
  fun orders st g =>
    let r := loAssign orders st [g.FuncMaps, funcMap]
    (r.1, { g with FuncMaps := r.2 })

/-- `NewGenerator`. -/
def NewGenerator (orders : Nat → FuncMap → FuncMap) (st : GoState)
    (opts : List GeneratorOption) : GoState × Generator :=
  opts.foldl (fun sg opt => opt orders sg.1 sg.2) (st, { FuncMaps := defaultFuncMapRef })

/-! ## `bytes.Trim` -/

/-- `asciiSet.contains` for the set made from the bytes of `cutset`. -/
def asciiSetContains (cutset : List Nat) (c : Nat) : Bool := cutset.contains c

/-- `trimLeftASCII`. -/
def trimLeftASCII (s : List Nat) (cutset : List Nat) : List Nat :=
  s.dropWhile (asciiSetContains cutset)

/-- `trimRightASCII`. -/
def trimRightASCII (s : List Nat) (cutset : List Nat) : List Nat :=
  s.rdropWhile (asciiSetContains cutset)

/-- `bytes.Trim` for a cutset of two or more ASCII bytes, the case of the call
in `Generate`; the nil and the empty slice are both the empty list. -/
def bytesTrim (s : List Nat) (cutset : List Nat) : List Nat :=
  if s = [] then []
  else trimLeftASCII (trimRightASCII s cutset) cutset

/-- The cutset `"\n "`. -/
def trimCutset : List Nat := [10, 32]

/-! ## `Generate` -/

/-- A Go `error` value. -/
structure GoError where
  msg : String
  deriving DecidableEq, Repr

/-- `DbConfig`. -/
structure DbConfig where
  Host : String
  Port : Int
  User : String
  Password : String
  DbName : String
  deriving DecidableEq, Repr

/-- `TemplateConfig`: one template job. -/
structure TemplateConfig where
  TemplatePath : String
  OutputPath : String
  deriving DecidableEq, Repr

/-- `Config`. -/
structure Config where
  DbConfig : DbConfig
  TargetSchema : String
  TemplateConfigs : List TemplateConfig
  deriving DecidableEq, Repr

/-- How a call ends: it returns its `error` result (`none` is `nil`), or it
panics with a value. -/
inductive Outcome where
  | returned (err : Option GoError)
  | panicked (err : GoError)
  deriving DecidableEq, Repr

/-- The files: what reading through each path gives (its bytes, or the error
of `os.ReadFile`), and the calls of `os.WriteFile` made so far with path, data
and permission bits. -/
structure FileState where
  files : String → Except GoError (List Nat)
  writes : List (String × List Nat × Nat)

/-- Everything `Generate` does not decide itself: the database, the template
engine, the faults of the file system and the orders of the two map ranges. -/
structure System where
  /-- The call `pgx.Connect` with the DSN of a database configuration. -/
  connect : DbConfig → Option GoError
  /-- The call `queries.GetColumnDefinitions` for a schema. -/
  getColumnDefinitions : String → Except GoError (List GetColumnDefinitionsRow)
  /-- The call `template.New(name).Funcs(funcs).Parse(text)`: its error, if any. -/
  parse : FuncMap → String → List Nat → Option GoError
  /-- The call `tmpl.Execute(buf, param)`: the bytes in `buf` and the error. -/
  execute : FuncMap → String → List Nat → Param → List Nat × Option GoError
  /-- The failure of `os.WriteFile` on a path and data, if any: the error and
  the bytes the failed call leaves in the file, if it touched it. -/
  writeFault : String → List Nat → Option (GoError × Option (List Nat))
  /-- The file a path names: two paths, such as `x.out` and `./x.out` or a
  link and its target, name one file when they have the same image. -/
  fileOf : String → String
  /-- The order of the range in `columnDefsToTemplateParam`. -/
  tableOrder : GoMap String (List GetColumnDefinitionsRow) →
    GoMap String (List GetColumnDefinitionsRow)
  /-- The order of the range over `resultMap`. -/
  resultOrder : GoMap String (List Nat) → GoMap String (List Nat)

/-- The body of the first loop of `Generate` for one template job: read,
parse, execute, trim.  A failure is the way `Generate` ends. -/
def renderJob (sys : System) (funcs : FuncMap) (files : String → Except GoError (List Nat))
    (tmplParam : Param) (templateCfg : TemplateConfig) : Except Outcome (List Nat) :=
  match files templateCfg.TemplatePath with
  | .error err => .error (.returned (some err))
  | .ok dat =>
    match sys.parse funcs templateCfg.TemplatePath dat with
    | some err => .error (.panicked err)
    | none =>
      match sys.execute funcs templateCfg.TemplatePath dat tmplParam with
      | (_, some err) => .error (.returned (some err))
      | (buf, none) => .ok (bytesTrim buf trimCutset)

/-- The first loop of `Generate`: the jobs in order, each result stored in
`resultMap` under its output path. -/
def renderLoop (sys : System) (funcs : FuncMap) (files : String → Except GoError (List Nat))
    (tmplParam : Param) :
    List TemplateConfig → GoMap String (List Nat) → Except Outcome (GoMap String (List Nat))
  | [], resultMap => .ok resultMap
  | templateCfg :: rest, resultMap =>
    match renderJob sys funcs files tmplParam templateCfg with
    | .error o => .error o
    | .ok ret => renderLoop sys funcs files tmplParam rest (resultMap.set templateCfg.OutputPath ret)

/-- `os.WriteFile(path, data, 0644)` when it succeeds: the file that `path`
names holds `data`, through whichever path it is read. -/
def writeFileOk (sys : System) (st : FileState) (path : String) (data : List Nat) :
    FileState :=
  { files := fun p => if sys.fileOf p = sys.fileOf path then .ok data else st.files p
    writes := st.writes ++ [(path, data, 0o644)] }

/-- `os.WriteFile(path, data, 0644)` when it fails leaving `residue` in the
file that `path` names. -/
def writeFileFail (sys : System) (st : FileState) (path : String) (data : List Nat)
    (residue : Option (List Nat)) : FileState :=
  { files := fun p =>
      match residue with
      | some left => if sys.fileOf p = sys.fileOf path then .ok left else st.files p
      | none => st.files p
    writes := st.writes ++ [(path, data, 0o644)] }

/-- The second loop of `Generate`, over the entries of `resultMap` in the
order of the range. -/
def writeLoop (sys : System) : List (String × List Nat) → FileState → Outcome × FileState
  | [], st => (.returned none, st)
  | (outputPath, result) :: rest, st =>
    match sys.writeFault outputPath result with
    | some (err, residue) =>
      (.returned (some err), writeFileFail sys st outputPath result residue)
    | none => writeLoop sys rest (writeFileOk sys st outputPath result)

/-- `Generator.Generate`.  The messages printed on standard output and the
closing of the connection are left out. -/
def Generate (sys : System) (heap : GoState) (x : Generator) (cfg : Config)
    (st : FileState) : Outcome × FileState :=
  match sys.connect cfg.DbConfig with
  | some err => (.returned (some err), st)
  | none =>
    match sys.getColumnDefinitions cfg.TargetSchema with
    | .error err => (.returned (some err), st)
    | .ok columnDefs =>
      let tmplParam := columnDefsToTemplateParam sys.tableOrder columnDefs
      match renderLoop sys (heap.read x.FuncMaps) st.files tmplParam cfg.TemplateConfigs [] with
      | .error o => (o, st)
      | .ok resultMap => writeLoop sys (sys.resultOrder resultMap) st

/-! ## Notions used to state the properties -/

/-- The `ColumnParam` built from one row. -/
def toColumnParam (r : GetColumnDefinitionsRow) : ColumnParam :=
  { ColumnName := r.ColumnName
    ColumnNameCamel := ToLowerCamel r.ColumnName
    ColumnType := r.DataType
    IsNullable := r.IsNullable }

/-- The `TableParam` built from one entry of the grouped map. -/
def toTableParam (entry : String × List GetColumnDefinitionsRow) : TableParam :=
  { TableName := entry.1
    TableNameCamelFU := caserTitleNoLower (ToCamel entry.1)
    Columns := entry.2.map toColumnParam }

/-- The last job, in list order, whose output path is `path`. -/
def lastJobFor (jobs : List TemplateConfig) (path : String) : Option TemplateConfig :=
  (jobs.filter (fun j => decide (j.OutputPath = path))).getLast?

/-- The bytes `stored` are `raw` without a run of newlines and spaces at the
front and one at the back, and neither start nor end with a newline or a
space: the longest such runs are removed and nothing else. -/
def IsTrimmedOutput (raw stored : List Nat) : Prop :=
  ∃ pre suf : List Nat,
    raw = pre ++ stored ++ suf
    ∧ (∀ b ∈ pre, b = 10 ∨ b = 32)
    ∧ (∀ b ∈ suf, b = 10 ∨ b = 32)
    ∧ (∀ b, stored.head? = some b → b ≠ 10 ∧ b ≠ 32)
    ∧ (∀ b, stored.getLast? = some b → b ≠ 10 ∧ b ≠ 32)
    ∧ (∀ b, b ≠ 10 → b ≠ 32 → stored.count b = raw.count b)

/-- The trimmed rendering of a job, when it renders. -/
def renderedBytes (sys : System) (funcs : FuncMap)
    (files : String → Except GoError (List Nat)) (tmplParam : Param)
    (job : TemplateConfig) : Option (List Nat) :=
  match renderJob sys funcs files tmplParam job with
  | .ok ret => some ret
  | .error _ => none

/-! ## A concrete system for the examples -/

/-- The database of the examples holds the table `users` with two columns. -/
def demoRows : List GetColumnDefinitionsRow :=
  [⟨"users", "id", "int4", false⟩, ⟨"users", "full_name", "text", true⟩]

/-- A system in which the database answers with `demoRows`, the template
engine rejects the text of two opening braces and renders every other text as
the text itself between blank space, no write fails, the path `./x.out` names
the file of `x.out`, and the result map is ranged over from its last entry to
its first. -/
def demoSystem : System :=
  { connect := fun _ => none
    getColumnDefinitions := fun _ => .ok demoRows
    parse := fun _ _ text =>
      if text = [123, 123] then some ⟨"template: unclosed action"⟩ else none
    execute := fun _ _ text _ => ([10, 32] ++ text ++ [32, 10], none)
    writeFault := fun _ _ => none
    fileOf := fun p => if p = "./x.out" then "x.out" else p
    tableOrder := id
    resultOrder := List.reverse }

/-- The system `demoSystem` with the result map ranged over from its first
entry to its last. -/
def demoSystemForward : System := { demoSystem with resultOrder := id }

/-- The files of the examples: two templates and a malformed one. -/
def demoFiles : String → Except GoError (List Nat) := fun p =>
  if p = "a.tmpl" then .ok [65, 32, 9, 66]
  else if p = "c.tmpl" then .ok [67]
  else if p = "bad.tmpl" then .ok [123, 123]
  else .error ⟨"no such file or directory"⟩

/-- The file state of the examples before `Generate` runs. -/
def demoState : FileState := { files := demoFiles, writes := [] }

/-- The configuration of the examples with the given template jobs. -/
def demoConfig (jobs : List TemplateConfig) : Config :=
  { DbConfig := { Host := "localhost", Port := 5432, User := "u", Password := "p", DbName := "d" }
    TargetSchema := "public"
    TemplateConfigs := jobs }

/-- The entry for key `k` after merging `maps` one after the other over an
entry `base`: an entry of a later map replaces what was there. -/
def mergedLookup (base : Option Helper) (maps : List FuncMap) (k : String) : Option Helper :=
  maps.foldl (fun acc m => match m.get? k with
    | some v => some v
    | none => acc) base

/-- An ASCII upper-case letter. -/
def isUpperChar (c : Char) : Bool := decide (65 ≤ c.toNat ∧ c.toNat ≤ 90)

/-- An ASCII lower-case letter. -/
def isLowerChar (c : Char) : Bool := decide (97 ≤ c.toNat ∧ c.toNat ≤ 122)

/-- An ASCII digit. -/
def isDigitChar (c : Char) : Bool := decide (48 ≤ c.toNat ∧ c.toNat ≤ 57)

/-- An ASCII letter or digit. -/
def isAlnumChar (c : Char) : Bool := isUpperChar c || isLowerChar c || isDigitChar c

/-- Letters and digits only, no lower-case letter right after a digit and no
upper-case letter right after an upper-case letter. -/
def camelChain : List Char → Bool
  | [] => true
  | [c] => isAlnumChar c
  | c :: d :: rest =>
    isAlnumChar c && !(isDigitChar c && isLowerChar d) && !(isUpperChar c && isUpperChar d)
      && camelChain (d :: rest)

/-- A name that is already lower camel case: a `camelChain` that does not
start with an upper-case letter. -/
def isLowerCamel (s : String) : Bool :=
  camelChain s.data &&
    match s.data with
    | [] => true
    | c :: _ => !isUpperChar c

/-- The first ASCII letter or digit of a string. -/
def firstAlnum (s : String) : Option Char := s.data.find? isAlnumChar

/-- The string starts with an ASCII upper-case letter. -/
def startsWithUpper (s : String) : Bool :=
  match s.data with
  | [] => false
  | c :: _ => isUpperChar c

/-- A byte that is an ASCII letter. -/
def isLetterByte (v : Nat) : Bool := decide (65 ≤ v ∧ v ≤ 90) || decide (97 ≤ v ∧ v ≤ 122)

/-- A byte that is an ASCII letter or digit. -/
def isAlnumByte (v : Nat) : Bool := isLetterByte v || decide (48 ≤ v ∧ v ≤ 57)

/-! # Properties -/

/-! ## Lemmas on Go maps -/

namespace GoMap

variable {κ ν : Type} [DecidableEq κ]

theorem get?_set (m : GoMap κ ν) (k k' : κ) (v : ν) :
    (m.set k v).get? k' = if k = k' then some v else m.get? k' := by
  induction m with
  | nil => simp [set, get?]
  | cons e rest ih =>
    obtain ⟨a, b⟩ := e
    by_cases h : a = k
    · subst h
      by_cases h' : a = k' <;> simp [set, get?, h']
    · by_cases h' : k = k'
      · subst h'
        simp [set, get?, h, ih]
      · by_cases h'' : a = k'
        · subst h''
          simp [set, get?, h, h']
        · simp [set, get?, h, h', h'', ih]

theorem get?_eq_none_iff (m : GoMap κ ν) (k : κ) :
    m.get? k = none ↔ k ∉ m.map Prod.fst := by
  induction m with
  | nil => simp [get?]
  | cons e rest ih =>
    obtain ⟨a, b⟩ := e
    by_cases h : a = k
    · simp [get?, h]
    · have h' : ¬ k = a := fun e => h e.symm
      simp [get?, h, h', ih]

theorem map_fst_set (m : GoMap κ ν) (k : κ) (v : ν) :
    (m.set k v).map Prod.fst =
      if k ∈ m.map Prod.fst then m.map Prod.fst else m.map Prod.fst ++ [k] := by
  induction m with
  | nil => simp [set]
  | cons e rest ih =>
    obtain ⟨a, b⟩ := e
    by_cases h : a = k
    · subst h; simp [set]
    · have h' : ¬ k = a := fun e => h e.symm
      simp only [set, h, if_false, List.map_cons, ih, List.mem_cons, h', false_or]
      split <;> simp

theorem WF_set {m : GoMap κ ν} (hm : m.WF) (k : κ) (v : ν) : (m.set k v).WF := by
  unfold WF at *
  rw [map_fst_set]
  split
  · exact hm
  · rename_i h
    exact List.Nodup.append hm (List.nodup_singleton k) (by simpa using h)

theorem mem_iff_get? {m : GoMap κ ν} (hm : m.WF) (k : κ) (v : ν) :
    (k, v) ∈ m ↔ m.get? k = some v := by
  induction m with
  | nil => simp [get?]
  | cons e rest ih =>
    obtain ⟨a, b⟩ := e
    have hm' : GoMap.WF rest := (List.nodup_cons.1 hm).2
    have hnot : a ∉ rest.map Prod.fst := (List.nodup_cons.1 hm).1
    by_cases h : a = k
    · subst h
      simp only [get?, if_true, List.mem_cons, Prod.mk.injEq, true_and, Option.some.injEq]
      constructor
      · rintro (h | h)
        · exact h.symm
        · exact absurd (List.mem_map_of_mem Prod.fst h) hnot
      · intro h; exact Or.inl h.symm
    · have h' : ¬ k = a := fun e => h e.symm
      simp [get?, h, h', ih hm']

/-- Storing under `k` the old slice extended by one item adds that item to
the concatenation of all slices. -/
theorem flatMap_set_append (m : GoMap κ (List ν)) (k : κ) (x : ν) :
    ((m.set k ((m.get? k).getD [] ++ [x])).flatMap Prod.snd).Perm
      (m.flatMap Prod.snd ++ [x]) := by
  induction m with
  | nil => simp [set, get?]
  | cons e rest ih =>
    obtain ⟨a, b⟩ := e
    by_cases h : a = k
    · subst h
      simp only [set, get?, if_true, Option.getD_some, List.flatMap_cons, List.append_assoc]
      exact List.Perm.append_left b List.perm_append_comm
    · simp only [set, get?, h, if_false, List.flatMap_cons, List.append_assoc]
      exact List.Perm.append_left b ih

end GoMap

/-! ### `lo.GroupBy` and `lo.Map` -/

section GroupBy

variable {α κ : Type} [DecidableEq κ]

theorem loGroupBy_snoc (l : List α) (x : α) (f : α → κ) :
    loGroupBy (l ++ [x]) f =
      (loGroupBy l f).set (f x) (((loGroupBy l f).get? (f x)).getD [] ++ [x]) := by
  simp [loGroupBy, List.foldl_append]

theorem loGroupBy_WF (l : List α) (f : α → κ) : (loGroupBy l f).WF := by
  induction l using List.reverseRecOn with
  | nil => simp [loGroupBy, GoMap.WF]
  | append_singleton l x ih =>
    rw [loGroupBy_snoc]
    exact GoMap.WF_set ih _ _

theorem loGroupBy_get? (l : List α) (f : α → κ) (k : κ) :
    (loGroupBy l f).get? k =
      if (l.filter (fun x => decide (f x = k))).isEmpty then none
      else some (l.filter (fun x => decide (f x = k))) := by
  induction l using List.reverseRecOn with
  | nil => simp [loGroupBy, GoMap.get?]
  | append_singleton l x ih =>
    rw [loGroupBy_snoc, GoMap.get?_set]
    by_cases h : f x = k
    · subst h
      rw [ih]
      by_cases hl : l.filter (fun y => decide (f y = f x)) = []
      · simp [List.filter_append, hl]
      · simp [List.filter_append, hl]
    · rw [ih]
      simp [List.filter_append, h]

theorem loGroupBy_flatMap_perm (l : List α) (f : α → κ) :
    ((loGroupBy l f).flatMap Prod.snd).Perm l := by
  induction l using List.reverseRecOn with
  | nil => simp [loGroupBy]
  | append_singleton l x ih =>
    rw [loGroupBy_snoc]
    exact (GoMap.flatMap_set_append _ _ _).trans (List.Perm.append_right [x] ih)

theorem mem_loGroupBy (l : List α) (f : α → κ) (k : κ) (v : List α) :
    (k, v) ∈ loGroupBy l f ↔ v = l.filter (fun x => decide (f x = k)) ∧ v ≠ [] := by
  rw [GoMap.mem_iff_get? (loGroupBy_WF l f), loGroupBy_get?]
  by_cases hl : l.filter (fun x => decide (f x = k)) = []
  · simp only [hl, List.isEmpty_nil, if_true]
    constructor
    · intro h; cases h
    · rintro ⟨h1, h2⟩; exact absurd h1 h2
  · have hl' : (l.filter (fun x => decide (f x = k))).isEmpty = false := by
      cases hc : l.filter (fun x => decide (f x = k)) with
      | nil => exact absurd hc hl
      | cons a t => rfl
    rw [hl']
    simp only [Bool.false_eq_true, if_false, Option.some.injEq]
    constructor
    · intro h; subst h; exact ⟨rfl, hl⟩
    · rintro ⟨h1, _⟩; exact h1.symm

theorem loMap_eq_map {β : Type} (l : List α) (g : α → β) :
    loMap l (fun x _ => g x) = l.map g := by
  unfold loMap
  induction l with
  | nil => rfl
  | cons a l ih => simp [List.mapIdx_cons, ih]

end GroupBy

/-! ### The parameter builder -/

theorem foldl_tableParams (l : List (String × List GetColumnDefinitionsRow))
    (init : List TableParam) :
    (l.foldl
      (fun (param : Param) entry =>
        ({ TableParams := param.TableParams ++
            [{ TableName := entry.1
               TableNameCamelFU := caserTitleNoLower (ToCamel entry.1)
               Columns := loMap entry.2 columnParamOf }] } : Param))
      { TableParams := init }).TableParams = init ++ l.map toTableParam := by
  induction l generalizing init with
  | nil => simp
  | cons e l ih =>
    rw [List.foldl_cons, ih]
    have : loMap e.2 columnParamOf = e.2.map toColumnParam :=
      loMap_eq_map e.2 toColumnParam
    simp [toTableParam, this]

theorem tableParams_eq
    (rangeOrder : GoMap String (List GetColumnDefinitionsRow) →
      GoMap String (List GetColumnDefinitionsRow))
    (columnDefs : List GetColumnDefinitionsRow) :
    (columnDefsToTemplateParam rangeOrder columnDefs).TableParams =
      (rangeOrder (loGroupBy columnDefs (fun c => c.TableName))).map toTableParam := by
  unfold columnDefsToTemplateParam
  simpa using foldl_tableParams _ []


theorem GoMap.filter_key_eq {κ ν : Type} [DecidableEq κ] {m : GoMap κ ν} (hm : m.WF)
    {k : κ} {v : ν} (h : (k, v) ∈ m) :
    m.filter (fun e => decide (e.1 = k)) = [(k, v)] := by
  induction m with
  | nil => cases h
  | cons e rest ih =>
    obtain ⟨a, b⟩ := e
    have hm' : GoMap.WF rest := (List.nodup_cons.1 hm).2
    have hnot : a ∉ rest.map Prod.fst := (List.nodup_cons.1 hm).1
    rcases List.mem_cons.1 h with h | h
    · cases h
      have : rest.filter (fun e => decide (e.1 = k)) = [] := by
        rw [List.filter_eq_nil_iff]
        intro e he hk
        exact hnot (by simpa using ⟨e.2, (of_decide_eq_true hk) ▸ he⟩)
      simp [List.filter_cons, this]
    · have hak : a ≠ k := fun e => hnot (e ▸ List.mem_map_of_mem Prod.fst h)
      simp [List.filter_cons, hak, ih hm' h]

theorem rangeOrder_WF {κ ν : Type} [DecidableEq κ] {order : GoMap κ ν → GoMap κ ν}
    (hOrder : IsRangeOrder order) {m : GoMap κ ν} (hm : m.WF) : (order m).WF :=
  ((hOrder m).map Prod.fst).nodup_iff.2 hm

theorem tableNames_eq
    (rangeOrder : GoMap String (List GetColumnDefinitionsRow) →
      GoMap String (List GetColumnDefinitionsRow))
    (columnDefs : List GetColumnDefinitionsRow) :
    (columnDefsToTemplateParam rangeOrder columnDefs).TableParams.map (fun t => t.TableName) =
      (rangeOrder (loGroupBy columnDefs (fun c => c.TableName))).map Prod.fst := by
  rw [tableParams_eq, List.map_map]
  rfl

theorem mem_keys_loGroupBy {α κ : Type} [DecidableEq κ] (l : List α) (f : α → κ) (k : κ) :
    k ∈ (loGroupBy l f).map Prod.fst ↔ k ∈ l.map f := by
  constructor
  · intro h
    obtain ⟨⟨k', v⟩, hmem, rfl⟩ := List.mem_map.1 h
    obtain ⟨hv, hne⟩ := (mem_loGroupBy l f k' v).1 hmem
    obtain ⟨x, hx⟩ := List.exists_mem_of_ne_nil v hne
    rw [hv] at hx
    have := List.mem_filter.1 hx
    exact List.mem_map.2 ⟨x, this.1, of_decide_eq_true this.2⟩
  · intro h
    obtain ⟨x, hx, rfl⟩ := List.mem_map.1 h
    have hne : l.filter (fun y => decide (f y = f x)) ≠ [] := by
      intro hnil
      have : x ∈ l.filter (fun y => decide (f y = f x)) :=
        List.mem_filter.2 ⟨hx, by simp⟩
      rw [hnil] at this
      cases this
    exact List.mem_map.2 ⟨(f x, _), (mem_loGroupBy l f (f x) _).2 ⟨rfl, hne⟩, rfl⟩

/-- C1: grouping partitions the rows: the column parameters of all tables,
each tagged with the name of the table that holds it, are the input rows' column
parameters tagged with the rows' table names, with the same multiplicities; no
two tables share a name; the number of column parameters is the number of
rows. -/
theorem columnDefsToTemplateParam_partition
    (rangeOrder : GoMap String (List GetColumnDefinitionsRow) →
      GoMap String (List GetColumnDefinitionsRow))
    (hOrder : IsRangeOrder rangeOrder)
    (columnDefs : List GetColumnDefinitionsRow) :
    ((columnDefsToTemplateParam rangeOrder columnDefs).TableParams.flatMap
        (fun t => t.Columns.map (fun c => (t.TableName, c)))).Perm
      (columnDefs.map (fun r => (r.TableName,
        ({ ColumnName := r.ColumnName
           ColumnNameCamel := ToLowerCamel r.ColumnName
           ColumnType := r.DataType
           IsNullable := r.IsNullable } : ColumnParam))))
    ∧ ((columnDefsToTemplateParam rangeOrder columnDefs).TableParams.map
        (fun t => t.TableName)).Nodup
    ∧ ((columnDefsToTemplateParam rangeOrder columnDefs).TableParams.map
        (fun t => t.Columns.length)).sum = columnDefs.length := by
  have hperm :
      ((columnDefsToTemplateParam rangeOrder columnDefs).TableParams.flatMap
        (fun t => t.Columns.map (fun c => (t.TableName, c)))).Perm
      (columnDefs.map (fun r => (r.TableName, toColumnParam r))) := by
    rw [tableParams_eq, List.flatMap_map]
    have hstep :
        (rangeOrder (loGroupBy columnDefs (fun c => c.TableName))).flatMap
          (fun e => (toTableParam e).Columns.map (fun c => ((toTableParam e).TableName, c)))
        = ((rangeOrder (loGroupBy columnDefs (fun c => c.TableName))).flatMap Prod.snd).map
          (fun r => (r.TableName, toColumnParam r)) := by
      rw [List.map_flatMap]
      apply List.flatMap_congr
      intro e he
      have hmem : (e.1, e.2) ∈ loGroupBy columnDefs (fun c => c.TableName) :=
        (hOrder _).mem_iff.1 he
      obtain ⟨hv, _⟩ := (mem_loGroupBy _ _ _ _).1 hmem
      simp only [toTableParam, List.map_map]
      apply List.map_congr_left
      intro r hr
      rw [hv] at hr
      have := of_decide_eq_true (List.mem_filter.1 hr).2
      simp [this]
    rw [hstep]
    exact (((hOrder _).flatMap_right Prod.snd).trans (loGroupBy_flatMap_perm _ _)).map _
  refine ⟨hperm, ?_, ?_⟩
  · rw [tableNames_eq]
    exact rangeOrder_WF hOrder (loGroupBy_WF _ _)
  · have h1 := hperm.length_eq
    rw [List.length_flatMap, List.length_map] at h1
    rw [← h1]
    congr 1
    apply List.map_congr_left
    intro t _
    simp

/-- C8: the table parameter of a table name that occurs in the rows is the
only one with that name, and its columns are the rows of that table in their
input order, mapped field by field. -/
theorem columns_of_table
    (rangeOrder : GoMap String (List GetColumnDefinitionsRow) →
      GoMap String (List GetColumnDefinitionsRow))
    (hOrder : IsRangeOrder rangeOrder)
    (columnDefs : List GetColumnDefinitionsRow) (tableName : String)
    (hName : tableName ∈ columnDefs.map (fun r => r.TableName)) :
    (columnDefsToTemplateParam rangeOrder columnDefs).TableParams.filter
        (fun t => decide (t.TableName = tableName)) =
      [{ TableName := tableName
         TableNameCamelFU := caserTitleNoLower (ToCamel tableName)
         Columns := (columnDefs.filter (fun r => decide (r.TableName = tableName))).map
           (fun r =>
             ({ ColumnName := r.ColumnName
                ColumnNameCamel := ToLowerCamel r.ColumnName
                ColumnType := r.DataType
                IsNullable := r.IsNullable } : ColumnParam)) }]
    ∧ columnDefsToTemplateParam rangeOrder
        [⟨"users", "id", "int4", false⟩, ⟨"users", "full_name", "text", true⟩] =
      { TableParams :=
          [{ TableName := "users"
             TableNameCamelFU := "Users"
             Columns := [⟨"id", "id", "int4", false⟩,
                         ⟨"full_name", "fullName", "text", true⟩] }] } := by
  constructor
  · rw [tableParams_eq, List.filter_map]
    have hk : tableName ∈ (loGroupBy columnDefs (fun c => c.TableName)).map Prod.fst :=
      (mem_keys_loGroupBy _ _ _).2 hName
    obtain ⟨⟨k, v⟩, hmem, hkv⟩ := List.mem_map.1 hk
    simp only at hkv
    subst hkv
    obtain ⟨hv, _⟩ := (mem_loGroupBy _ _ _ _).1 hmem
    have hmem' : (k, v) ∈ rangeOrder (loGroupBy columnDefs (fun c => c.TableName)) :=
      (hOrder _).mem_iff.2 hmem
    have hf := GoMap.filter_key_eq (rangeOrder_WF hOrder (loGroupBy_WF _ _)) hmem'
    have hfun : ((fun t : TableParam => decide (t.TableName = k)) ∘ toTableParam) =
        (fun e : String × List GetColumnDefinitionsRow => decide (e.1 = k)) := rfl
    rw [hfun, hf, hv]
    rfl
  · have hm : loGroupBy
        [(⟨"users", "id", "int4", false⟩ : GetColumnDefinitionsRow),
          ⟨"users", "full_name", "text", true⟩] (fun c => c.TableName) =
        [("users", [⟨"users", "id", "int4", false⟩, ⟨"users", "full_name", "text", true⟩])] := by
      decide
    have hp := hOrder (loGroupBy
        [(⟨"users", "id", "int4", false⟩ : GetColumnDefinitionsRow),
          ⟨"users", "full_name", "text", true⟩] (fun c => c.TableName))
    rw [hm, List.perm_singleton] at hp
    have ht := tableParams_eq rangeOrder
      [⟨"users", "id", "int4", false⟩, ⟨"users", "full_name", "text", true⟩]
    rw [hm, hp] at ht
    cases hres : columnDefsToTemplateParam rangeOrder
        [⟨"users", "id", "int4", false⟩, ⟨"users", "full_name", "text", true⟩] with
    | mk tps =>
      rw [hres] at ht
      simp only at ht
      rw [ht]
      decide

/-- C9: the tables are the distinct table names of the rows, compared by
string equality: one table per distinct name, every table non-empty, and the
empty row list gives the empty table list; names that differ in letter case or
in surrounding white space give separate tables. -/
theorem tables_are_distinct_names
    (rangeOrder : GoMap String (List GetColumnDefinitionsRow) →
      GoMap String (List GetColumnDefinitionsRow))
    (hOrder : IsRangeOrder rangeOrder)
    (columnDefs : List GetColumnDefinitionsRow) :
    ((columnDefsToTemplateParam rangeOrder columnDefs).TableParams.map
        (fun t => t.TableName)).Perm (columnDefs.map (fun r => r.TableName)).dedup
    ∧ ((columnDefsToTemplateParam rangeOrder columnDefs).TableParams.map
        (fun t => t.TableName)).Nodup
    ∧ (∀ t ∈ (columnDefsToTemplateParam rangeOrder columnDefs).TableParams,
        t.TableName ∈ columnDefs.map (fun r => r.TableName))
    ∧ (∀ t ∈ (columnDefsToTemplateParam rangeOrder columnDefs).TableParams,
        t.Columns ≠ [])
    ∧ columnDefsToTemplateParam rangeOrder [] = { TableParams := [] }
    ∧ (columnDefsToTemplateParam rangeOrder
        [⟨"users", "id", "int4", false⟩, ⟨"Users", "id", "int4", false⟩,
         ⟨" users", "id", "int4", false⟩]).TableParams.length = 3 := by
  have hnodup : ∀ rows : List GetColumnDefinitionsRow,
      ((columnDefsToTemplateParam rangeOrder rows).TableParams.map
        (fun t => t.TableName)).Nodup := by
    intro rows
    rw [tableNames_eq]
    exact rangeOrder_WF hOrder (loGroupBy_WF _ _)
  have hmem : ∀ (rows : List GetColumnDefinitionsRow) (k : String),
      k ∈ (columnDefsToTemplateParam rangeOrder rows).TableParams.map (fun t => t.TableName)
        ↔ k ∈ rows.map (fun r => r.TableName) := by
    intro rows k
    rw [tableNames_eq, ((hOrder _).map Prod.fst).mem_iff, mem_keys_loGroupBy]
  have hperm : ∀ rows : List GetColumnDefinitionsRow,
      ((columnDefsToTemplateParam rangeOrder rows).TableParams.map
        (fun t => t.TableName)).Perm (rows.map (fun r => r.TableName)).dedup := by
    intro rows
    rw [List.perm_ext_iff_of_nodup (hnodup rows) (List.nodup_dedup _)]
    intro k
    rw [hmem, List.mem_dedup]
  refine ⟨hperm _, hnodup _, ?_, ?_, ?_, ?_⟩
  · intro t ht
    exact (hmem _ _).1 (List.mem_map_of_mem (fun t => t.TableName) ht)
  · intro t ht
    rw [tableParams_eq] at ht
    obtain ⟨⟨k, v⟩, he, rfl⟩ := List.mem_map.1 ht
    have := (mem_loGroupBy _ _ _ _).1 ((hOrder _).mem_iff.1 he)
    simpa [toTableParam] using this.2
  · have hp := hOrder (loGroupBy ([] : List GetColumnDefinitionsRow) (fun c => c.TableName))
    have hm : loGroupBy ([] : List GetColumnDefinitionsRow) (fun c => c.TableName) = [] := rfl
    rw [hm, List.perm_nil] at hp
    have ht := tableParams_eq rangeOrder []
    rw [hm, hp] at ht
    cases hres : columnDefsToTemplateParam rangeOrder [] with
    | mk tps =>
      rw [hres] at ht
      simp only [List.map_nil] at ht
      rw [ht]
  · have h := (hperm [⟨"users", "id", "int4", false⟩, ⟨"Users", "id", "int4", false⟩,
         ⟨" users", "id", "int4", false⟩]).length_eq
    rw [List.length_map] at h
    rw [h]
    decide


/-- The witness of C1: the rows of the examples, ranged over in reverse. -/
theorem columnDefsToTemplateParam_partition_witness :
    ((columnDefsToTemplateParam List.reverse demoRows).TableParams.flatMap
        (fun t => t.Columns.map (fun c => (t.TableName, c)))).Perm
      (demoRows.map (fun r => (r.TableName,
        ({ ColumnName := r.ColumnName
           ColumnNameCamel := ToLowerCamel r.ColumnName
           ColumnType := r.DataType
           IsNullable := r.IsNullable } : ColumnParam))))
    ∧ ((columnDefsToTemplateParam List.reverse demoRows).TableParams.map
        (fun t => t.TableName)).Nodup
    ∧ ((columnDefsToTemplateParam List.reverse demoRows).TableParams.map
        (fun t => t.Columns.length)).sum = demoRows.length :=
  columnDefsToTemplateParam_partition List.reverse (fun m => List.reverse_perm m) demoRows

/-- The witness of C8: the table `users` of the examples. -/
theorem columns_of_table_witness :
    (columnDefsToTemplateParam List.reverse
        (⟨"orders", "id", "int8", false⟩ :: demoRows)).TableParams.filter
        (fun t => decide (t.TableName = "users")) =
      [{ TableName := "users"
         TableNameCamelFU := "Users"
         Columns := [⟨"id", "id", "int4", false⟩,
                     ⟨"full_name", "fullName", "text", true⟩] }] :=
  (columns_of_table List.reverse (fun m => List.reverse_perm m)
    (⟨"orders", "id", "int8", false⟩ :: demoRows) "users" (by decide)).1.trans (by decide)

/-- The witness of C9: two tables in three rows. -/
theorem tables_are_distinct_names_witness :
    ((columnDefsToTemplateParam List.reverse
        (⟨"orders", "id", "int8", false⟩ :: demoRows)).TableParams.map
        (fun t => t.TableName)).Perm ["orders", "users"]
    ∧ ∀ t ∈ (columnDefsToTemplateParam List.reverse
        (⟨"orders", "id", "int8", false⟩ :: demoRows)).TableParams, t.Columns ≠ [] :=
  have h := tables_are_distinct_names List.reverse (fun m => List.reverse_perm m)
    (⟨"orders", "id", "int8", false⟩ :: demoRows)
  ⟨h.1.trans (by decide), h.2.2.2.1⟩
/-! ### `bytes.Trim` -/

theorem asciiSetContains_trimCutset (b : Nat) :
    asciiSetContains trimCutset b = true ↔ b = 10 ∨ b = 32 := by
  simp [asciiSetContains, trimCutset]

theorem rdropWhile_append_rtakeWhile {α : Type} (p : α → Bool) (l : List α) :
    l.rdropWhile p ++ l.rtakeWhile p = l := by
  have h := List.takeWhile_append_dropWhile p l.reverse
  have h2 := congrArg List.reverse h
  rw [List.reverse_append, List.reverse_reverse] at h2
  exact h2

theorem getLast?_dropWhile {α : Type} (p : α → Bool) (l : List α) (b : α)
    (h : (l.dropWhile p).getLast? = some b) : l.getLast? = some b := by
  have hl := List.takeWhile_append_dropWhile p l
  have hne : l.dropWhile p ≠ [] := by
    intro hnil
    rw [hnil] at h
    cases h
  rw [← hl, List.getLast?_append_of_ne_nil _ hne]
  exact h

theorem getLast?_rdropWhile_not {α : Type} (p : α → Bool) (l : List α) (b : α)
    (h : (l.rdropWhile p).getLast? = some b) : p b = false := by
  have hne : l.rdropWhile p ≠ [] := by
    intro hnil
    rw [hnil] at h
    cases h
  have hnot := List.rdropWhile_last_not p l hne
  rw [List.getLast?_eq_getLast _ hne] at h
  cases h
  simpa using hnot

/-- What `bytes.Trim(raw, "\n ")` returns: `raw` without a run of newlines
and spaces at the front and one at the back, the rest neither starting nor
ending with a newline or space. -/
theorem bytesTrim_spec (raw : List Nat) :
    ∃ pre suf : List Nat,
      raw = pre ++ bytesTrim raw trimCutset ++ suf
      ∧ (∀ b ∈ pre, b = 10 ∨ b = 32)
      ∧ (∀ b ∈ suf, b = 10 ∨ b = 32)
      ∧ (∀ b, (bytesTrim raw trimCutset).head? = some b → b ≠ 10 ∧ b ≠ 32)
      ∧ (∀ b, (bytesTrim raw trimCutset).getLast? = some b → b ≠ 10 ∧ b ≠ 32) := by
  by_cases hraw : raw = []
  · subst hraw
    exact ⟨[], [], by simp [bytesTrim], by simp, by simp, by simp [bytesTrim],
      by simp [bytesTrim]⟩
  · have hT : bytesTrim raw trimCutset =
        (raw.rdropWhile (asciiSetContains trimCutset)).dropWhile
          (asciiSetContains trimCutset) := by
      simp [bytesTrim, hraw, trimLeftASCII, trimRightASCII]
    rw [hT]
    refine ⟨(raw.rdropWhile (asciiSetContains trimCutset)).takeWhile
        (asciiSetContains trimCutset),
      raw.rtakeWhile (asciiSetContains trimCutset), ?_, ?_, ?_, ?_, ?_⟩
    · rw [List.takeWhile_append_dropWhile, rdropWhile_append_rtakeWhile]
    · intro b hb
      exact (asciiSetContains_trimCutset b).1 (List.mem_takeWhile_imp hb)
    · intro b hb
      exact (asciiSetContains_trimCutset b).1 (List.mem_rtakeWhile_imp hb)
    · intro b hb
      have h := List.head?_dropWhile_not (asciiSetContains trimCutset)
        (raw.rdropWhile (asciiSetContains trimCutset))
      rw [hb] at h
      simp only at h
      constructor
      · intro h10; subst h10; simp [asciiSetContains, trimCutset] at h
      · intro h32; subst h32; simp [asciiSetContains, trimCutset] at h
    · intro b hb
      have h := getLast?_rdropWhile_not _ _ _ (getLast?_dropWhile _ _ _ hb)
      constructor
      · intro h10; subst h10; simp [asciiSetContains, trimCutset] at h
      · intro h32; subst h32; simp [asciiSetContains, trimCutset] at h

/-! ### The render and write loops -/

theorem lastJobFor_cons (job : TemplateConfig) (rest : List TemplateConfig) (path : String) :
    lastJobFor (job :: rest) path =
      match lastJobFor rest path with
      | some j => some j
      | none => if job.OutputPath = path then some job else none := by
  unfold lastJobFor
  by_cases h : job.OutputPath = path
  · simp only [List.filter_cons, h, decide_True, if_true, List.getLast?_cons]
    cases (rest.filter (fun j => decide (j.OutputPath = path))).getLast? <;> rfl
  · simp only [List.filter_cons, h, decide_False, if_false, Bool.false_eq_true]
    cases (rest.filter (fun j => decide (j.OutputPath = path))).getLast? <;> rfl

theorem lastJobFor_mem {jobs : List TemplateConfig} {path : String} {j : TemplateConfig}
    (h : lastJobFor jobs path = some j) : j ∈ jobs ∧ j.OutputPath = path := by
  unfold lastJobFor at h
  have := List.mem_of_getLast?_eq_some h
  have := List.mem_filter.1 this
  exact ⟨this.1, of_decide_eq_true this.2⟩

theorem lastJobFor_isSome {jobs : List TemplateConfig} {j : TemplateConfig} (h : j ∈ jobs) :
    ∃ j', lastJobFor jobs j.OutputPath = some j' := by
  unfold lastJobFor
  have hmem : j ∈ jobs.filter (fun i => decide (i.OutputPath = j.OutputPath)) :=
    List.mem_filter.2 ⟨h, by simp⟩
  cases hl : (jobs.filter (fun i => decide (i.OutputPath = j.OutputPath))).getLast? with
  | some j' => exact ⟨j', rfl⟩
  | none =>
    rw [List.getLast?_eq_none_iff] at hl
    rw [hl] at hmem
    cases hmem

theorem renderLoop_error (sys : System) (funcs : FuncMap)
    (files : String → Except GoError (List Nat)) (tmplParam : Param)
    (pre : List TemplateConfig) (job : TemplateConfig) (post : List TemplateConfig)
    (o : Outcome)
    (hPre : ∀ j ∈ pre, ∃ ret, renderJob sys funcs files tmplParam j = .ok ret)
    (hJob : renderJob sys funcs files tmplParam job = .error o)
    (resultMap : GoMap String (List Nat)) :
    renderLoop sys funcs files tmplParam (pre ++ job :: post) resultMap = .error o := by
  induction pre generalizing resultMap with
  | nil => simp [renderLoop, hJob]
  | cons j pre ih =>
    obtain ⟨ret, hret⟩ := hPre j (List.mem_cons_self _ _)
    simp only [List.cons_append, renderLoop, hret]
    exact ih (fun i hi => hPre i (List.mem_cons_of_mem _ hi)) _

theorem renderLoop_ok (sys : System) (funcs : FuncMap)
    (files : String → Except GoError (List Nat)) (tmplParam : Param)
    (jobs : List TemplateConfig)
    (hAll : ∀ j ∈ jobs, ∃ ret, renderJob sys funcs files tmplParam j = .ok ret)
    (resultMap : GoMap String (List Nat)) (hWF : resultMap.WF) :
    ∃ out, renderLoop sys funcs files tmplParam jobs resultMap = .ok out ∧ out.WF ∧
      ∀ p, out.get? p =
        match lastJobFor jobs p with
        | some j => renderedBytes sys funcs files tmplParam j
        | none => resultMap.get? p := by
  induction jobs generalizing resultMap with
  | nil => exact ⟨resultMap, rfl, hWF, fun p => rfl⟩
  | cons job rest ih =>
    obtain ⟨ret, hret⟩ := hAll job (List.mem_cons_self _ _)
    obtain ⟨out, hout, hwf, hget⟩ := ih (fun i hi => hAll i (List.mem_cons_of_mem _ hi))
      (resultMap.set job.OutputPath ret) (GoMap.WF_set hWF _ _)
    refine ⟨out, by simp only [renderLoop, hret, hout], hwf, ?_⟩
    intro p
    rw [hget p, lastJobFor_cons]
    cases hl : lastJobFor rest p with
    | some j => rfl
    | none =>
      simp only [GoMap.get?_set]
      by_cases hp : job.OutputPath = p
      · simp [hp, renderedBytes, hret]
      · simp [hp]

theorem renderLoop_append (sys : System) (funcs : FuncMap)
    (files : String → Except GoError (List Nat)) (tmplParam : Param)
    (l1 l2 : List TemplateConfig) (resultMap : GoMap String (List Nat)) :
    renderLoop sys funcs files tmplParam (l1 ++ l2) resultMap =
      match renderLoop sys funcs files tmplParam l1 resultMap with
      | .error o => .error o
      | .ok mid => renderLoop sys funcs files tmplParam l2 mid := by
  induction l1 generalizing resultMap with
  | nil => rfl
  | cons j l1 ih =>
    simp only [List.cons_append, renderLoop]
    cases renderJob sys funcs files tmplParam j with
    | error o => rfl
    | ok ret => exact ih _

theorem writeLoop_writes (sys : System) (l : List (String × List Nat))
    (hOk : ∀ e ∈ l, sys.writeFault e.1 e.2 = none) (st : FileState) :
    (writeLoop sys l st).1 = .returned none
    ∧ (writeLoop sys l st).2.writes = st.writes ++ l.map (fun e => (e.1, e.2, 0o644)) := by
  induction l generalizing st with
  | nil => simp [writeLoop]
  | cons e rest ih =>
    obtain ⟨k, v⟩ := e
    have hk : sys.writeFault k v = none := hOk (k, v) (List.mem_cons_self _ _)
    obtain ⟨h1, h2⟩ := ih (fun e he => hOk e (List.mem_cons_of_mem _ he))
      (writeFileOk sys st k v)
    simp only [writeLoop, hk]
    refine ⟨h1, ?_⟩
    rw [h2]; simp [writeFileOk]

theorem writeLoop_files (sys : System) (l : List (String × List Nat))
    (hNodup : (l.map (fun e => sys.fileOf e.1)).Nodup)
    (hOk : ∀ e ∈ l, sys.writeFault e.1 e.2 = none) (st : FileState) :
    (∀ p q d, (q, d) ∈ l → sys.fileOf p = sys.fileOf q →
        (writeLoop sys l st).2.files p = .ok d)
    ∧ (∀ p, sys.fileOf p ∉ l.map (fun e => sys.fileOf e.1) →
        (writeLoop sys l st).2.files p = st.files p) := by
  induction l generalizing st with
  | nil => simp [writeLoop]
  | cons e rest ih =>
    obtain ⟨k, v⟩ := e
    have hk : sys.writeFault k v = none := hOk (k, v) (List.mem_cons_self _ _)
    have hnd := List.nodup_cons.1 hNodup
    obtain ⟨h3, h4⟩ := ih hnd.2 (fun e he => hOk e (List.mem_cons_of_mem _ he))
      (writeFileOk sys st k v)
    simp only [writeLoop, hk]
    refine ⟨?_, ?_⟩
    · intro p q d hqd hpq
      rcases List.mem_cons.1 hqd with h | h
      · cases h
        have hnot : sys.fileOf p ∉ rest.map (fun e => sys.fileOf e.1) := by
          rw [hpq]; exact hnd.1
        rw [h4 p hnot]
        simp [writeFileOk, hpq]
      · exact h3 p q d h hpq
    · intro p hp
      have hp1 : sys.fileOf p ≠ sys.fileOf k ∧
          sys.fileOf p ∉ rest.map (fun e => sys.fileOf e.1) := by
        simp only [List.map_cons, List.mem_cons, not_or] at hp
        exact hp
      rw [h4 p hp1.2]
      simp [writeFileOk, hp1.1]

/-! ### `Generate` -/

theorem Generate_eq (sys : System) (heap : GoState) (x : Generator) (cfg : Config)
    (st : FileState) (columnDefs : List GetColumnDefinitionsRow)
    (hConn : sys.connect cfg.DbConfig = none)
    (hQuery : sys.getColumnDefinitions cfg.TargetSchema = .ok columnDefs) :
    Generate sys heap x cfg st =
      match renderLoop sys (heap.read x.FuncMaps) st.files
          (columnDefsToTemplateParam sys.tableOrder columnDefs) cfg.TemplateConfigs [] with
      | .error o => (o, st)
      | .ok resultMap => writeLoop sys (sys.resultOrder resultMap) st := by
  simp only [Generate, hConn, hQuery]

theorem Generate_of_job_error (sys : System) (heap : GoState) (x : Generator) (cfg : Config)
    (st : FileState) (columnDefs : List GetColumnDefinitionsRow)
    (pre : List TemplateConfig) (job : TemplateConfig) (post : List TemplateConfig)
    (o : Outcome)
    (hConn : sys.connect cfg.DbConfig = none)
    (hQuery : sys.getColumnDefinitions cfg.TargetSchema = .ok columnDefs)
    (hJobs : cfg.TemplateConfigs = pre ++ job :: post)
    (hPre : ∀ j ∈ pre, ∃ ret, renderJob sys (heap.read x.FuncMaps) st.files
      (columnDefsToTemplateParam sys.tableOrder columnDefs) j = .ok ret)
    (hJob : renderJob sys (heap.read x.FuncMaps) st.files
      (columnDefsToTemplateParam sys.tableOrder columnDefs) job = .error o) :
    Generate sys heap x cfg st = (o, st) := by
  rw [Generate_eq sys heap x cfg st columnDefs hConn hQuery, hJobs,
    renderLoop_error sys _ _ _ pre job post o hPre hJob]

theorem bytesTrim_isTrimmedOutput (raw : List Nat) :
    IsTrimmedOutput raw (bytesTrim raw trimCutset) := by
  obtain ⟨pre, suf, hraw, hpre, hsuf, hhead, hlast⟩ := bytesTrim_spec raw
  refine ⟨pre, suf, hraw, hpre, hsuf, hhead, hlast, ?_⟩
  intro b h10 h32
  have hp : pre.count b = 0 := by
    rw [List.count_eq_zero]
    intro hb
    rcases hpre b hb with h | h
    · exact h10 h
    · exact h32 h
  have hs : suf.count b = 0 := by
    rw [List.count_eq_zero]
    intro hb
    rcases hsuf b hb with h | h
    · exact h10 h
    · exact h32 h
  have hc := congrArg (List.count b) hraw
  rw [List.count_append, List.count_append, hp, hs] at hc
  omega

/-- C2: in a run of `Generate` in which the jobs before a job render and the
job's template is read, parsed and executed with output `raw`, the result map
holds under the job's output path, once the job is processed, the bytes
`stored` that are `raw` without the longest run of newlines and spaces at the
front and at the back and nothing else altered; `Generate` goes on from that
map; and when the later jobs render without naming that path and no write
fails, `Generate` returns nil having called `os.WriteFile` for that path with
`stored` and with nothing else. -/
theorem stored_result_is_trimmed_output (sys : System) (heap : GoState) (x : Generator)
    (cfg : Config) (st : FileState) (columnDefs : List GetColumnDefinitionsRow)
    (pre : List TemplateConfig) (job : TemplateConfig) (post : List TemplateConfig)
    (dat raw : List Nat)
    (hConn : sys.connect cfg.DbConfig = none)
    (hQuery : sys.getColumnDefinitions cfg.TargetSchema = .ok columnDefs)
    (hJobs : cfg.TemplateConfigs = pre ++ job :: post)
    (hPre : ∀ j ∈ pre, ∃ ret, renderJob sys (heap.read x.FuncMaps) st.files
      (columnDefsToTemplateParam sys.tableOrder columnDefs) j = .ok ret)
    (hRead : st.files job.TemplatePath = .ok dat)
    (hParse : sys.parse (heap.read x.FuncMaps) job.TemplatePath dat = none)
    (hExec : sys.execute (heap.read x.FuncMaps) job.TemplatePath dat
      (columnDefsToTemplateParam sys.tableOrder columnDefs) = (raw, none)) :
    ∃ (resultMap : GoMap String (List Nat)) (stored : List Nat),
      IsTrimmedOutput raw stored
      ∧ renderLoop sys (heap.read x.FuncMaps) st.files
          (columnDefsToTemplateParam sys.tableOrder columnDefs) (pre ++ [job]) [] =
          .ok resultMap
      ∧ resultMap.get? job.OutputPath = some stored
      ∧ Generate sys heap x cfg st =
          (match renderLoop sys (heap.read x.FuncMaps) st.files
              (columnDefsToTemplateParam sys.tableOrder columnDefs) post resultMap with
            | .error o => (o, st)
            | .ok final => writeLoop sys (sys.resultOrder final) st)
      ∧ ((∀ j ∈ post, ∃ ret, renderJob sys (heap.read x.FuncMaps) st.files
            (columnDefsToTemplateParam sys.tableOrder columnDefs) j = .ok ret) →
          (∀ j ∈ post, j.OutputPath ≠ job.OutputPath) →
          IsRangeOrder sys.resultOrder →
          (∀ p d, sys.writeFault p d = none) →
          (Generate sys heap x cfg st).1 = .returned none
          ∧ ∃ ws : List (String × List Nat × Nat),
              (Generate sys heap x cfg st).2.writes = st.writes ++ ws
              ∧ (job.OutputPath, stored, 0o644) ∈ ws
              ∧ ∀ w ∈ ws, w.1 = job.OutputPath → w.2.1 = stored) := by
  have hJob : renderJob sys (heap.read x.FuncMaps) st.files
      (columnDefsToTemplateParam sys.tableOrder columnDefs) job =
      .ok (bytesTrim raw trimCutset) := by
    simp only [renderJob, hRead, hParse, hExec]
  obtain ⟨mid, hmid, hmidWF, _⟩ := renderLoop_ok sys (heap.read x.FuncMaps) st.files
    (columnDefsToTemplateParam sys.tableOrder columnDefs) pre hPre [] (by simp [GoMap.WF])
  have hrun : renderLoop sys (heap.read x.FuncMaps) st.files
      (columnDefsToTemplateParam sys.tableOrder columnDefs) (pre ++ [job]) [] =
      .ok (mid.set job.OutputPath (bytesTrim raw trimCutset)) := by
    rw [renderLoop_append, hmid]
    simp only [renderLoop, hJob]
  have hWF : GoMap.WF (mid.set job.OutputPath (bytesTrim raw trimCutset)) :=
    GoMap.WF_set hmidWF _ _
  have hget : (mid.set job.OutputPath (bytesTrim raw trimCutset)).get? job.OutputPath =
      some (bytesTrim raw trimCutset) := by
    simp [GoMap.get?_set]
  have hG : Generate sys heap x cfg st =
      (match renderLoop sys (heap.read x.FuncMaps) st.files
          (columnDefsToTemplateParam sys.tableOrder columnDefs) post
          (mid.set job.OutputPath (bytesTrim raw trimCutset)) with
        | .error o => (o, st)
        | .ok final => writeLoop sys (sys.resultOrder final) st) := by
    have hsplit : pre ++ job :: post = (pre ++ [job]) ++ post := by simp
    rw [Generate_eq sys heap x cfg st columnDefs hConn hQuery, hJobs, hsplit,
      renderLoop_append, hrun]
  refine ⟨_, _, bytesTrim_isTrimmedOutput raw, hrun, hget, hG, ?_⟩
  intro hPost hOther hOrder hWrite
  obtain ⟨final, hfinal, hfinalWF, hfget⟩ := renderLoop_ok sys (heap.read x.FuncMaps)
    st.files (columnDefsToTemplateParam sys.tableOrder columnDefs) post hPost
    (mid.set job.OutputPath (bytesTrim raw trimCutset)) hWF
  have hlast : lastJobFor post job.OutputPath = none := by
    cases hl : lastJobFor post job.OutputPath with
    | none => rfl
    | some j =>
      have := lastJobFor_mem hl
      exact absurd this.2 (hOther j this.1)
  have hfinalGet : final.get? job.OutputPath = some (bytesTrim raw trimCutset) := by
    rw [hfget, hlast]
    exact hget
  obtain ⟨h1, h2⟩ := writeLoop_writes sys (sys.resultOrder final)
    (fun e _ => hWrite e.1 e.2) st
  rw [hG, hfinal]
  refine ⟨h1, (sys.resultOrder final).map (fun e => (e.1, e.2, 0o644)), h2, ?_, ?_⟩
  · have hin : (job.OutputPath, bytesTrim raw trimCutset) ∈ sys.resultOrder final :=
      (hOrder final).mem_iff.2 ((GoMap.mem_iff_get? hfinalWF _ _).2 hfinalGet)
    exact List.mem_map.2 ⟨_, hin, rfl⟩
  · intro w hw hpath
    obtain ⟨e, he, rfl⟩ := List.mem_map.1 hw
    have hin : (e.1, e.2) ∈ final := (hOrder final).mem_iff.1 he
    have hg := (GoMap.mem_iff_get? hfinalWF _ _).1 hin
    simp only at hpath
    rw [hpath, hfinalGet] at hg
    exact (Option.some.inj hg).symm

/-- The witness of C2: the first template of the examples as the only job. -/
theorem stored_result_is_trimmed_output_witness :
    ∃ (resultMap : GoMap String (List Nat)) (stored : List Nat),
      IsTrimmedOutput [10, 32, 65, 32, 9, 66, 32, 10] stored
      ∧ renderLoop demoSystem defaultFuncMap demoFiles
          (columnDefsToTemplateParam id demoRows) [⟨"a.tmpl", "a.out"⟩] [] = .ok resultMap
      ∧ resultMap.get? "a.out" = some stored
      ∧ Generate demoSystem (initialState []) ⟨defaultFuncMapRef⟩
          (demoConfig [⟨"a.tmpl", "a.out"⟩]) demoState =
          (match renderLoop demoSystem defaultFuncMap demoFiles
              (columnDefsToTemplateParam id demoRows) [] resultMap with
            | .error o => (o, demoState)
            | .ok final => writeLoop demoSystem (demoSystem.resultOrder final) demoState)
      ∧ ((∀ j ∈ ([] : List TemplateConfig), ∃ ret, renderJob demoSystem defaultFuncMap
            demoFiles (columnDefsToTemplateParam id demoRows) j = .ok ret) →
          (∀ j ∈ ([] : List TemplateConfig), j.OutputPath ≠ "a.out") →
          IsRangeOrder demoSystem.resultOrder →
          (∀ p d, demoSystem.writeFault p d = none) →
          (Generate demoSystem (initialState []) ⟨defaultFuncMapRef⟩
              (demoConfig [⟨"a.tmpl", "a.out"⟩]) demoState).1 = .returned none
          ∧ ∃ ws : List (String × List Nat × Nat),
              (Generate demoSystem (initialState []) ⟨defaultFuncMapRef⟩
                (demoConfig [⟨"a.tmpl", "a.out"⟩]) demoState).2.writes = [] ++ ws
              ∧ ("a.out", stored, 0o644) ∈ ws
              ∧ ∀ w ∈ ws, w.1 = "a.out" → w.2.1 = stored) :=
  stored_result_is_trimmed_output demoSystem (initialState []) ⟨defaultFuncMapRef⟩
    (demoConfig [⟨"a.tmpl", "a.out"⟩]) demoState demoRows [] ⟨"a.tmpl", "a.out"⟩ []
    [65, 32, 9, 66] [10, 32, 65, 32, 9, 66, 32, 10] rfl rfl rfl
    (fun _ hj => absurd hj (List.not_mem_nil _)) rfl rfl rfl

/-- C3: when the jobs before a job render and that job's template cannot be
read, or is read and parsed but fails to execute, `Generate` returns that
error, the files are what they were and no call of `os.WriteFile` was made. -/
theorem failed_job_writes_nothing (sys : System) (heap : GoState) (x : Generator)
    (cfg : Config) (st : FileState) (columnDefs : List GetColumnDefinitionsRow)
    (pre : List TemplateConfig) (job : TemplateConfig) (post : List TemplateConfig)
    (err : GoError)
    (hConn : sys.connect cfg.DbConfig = none)
    (hQuery : sys.getColumnDefinitions cfg.TargetSchema = .ok columnDefs)
    (hJobs : cfg.TemplateConfigs = pre ++ job :: post)
    (hPre : ∀ j ∈ pre, ∃ ret, renderJob sys (heap.read x.FuncMaps) st.files
      (columnDefsToTemplateParam sys.tableOrder columnDefs) j = .ok ret)
    (hFail : st.files job.TemplatePath = .error err ∨
      ∃ dat buf, st.files job.TemplatePath = .ok dat
        ∧ sys.parse (heap.read x.FuncMaps) job.TemplatePath dat = none
        ∧ sys.execute (heap.read x.FuncMaps) job.TemplatePath dat
            (columnDefsToTemplateParam sys.tableOrder columnDefs) = (buf, some err)) :
    (Generate sys heap x cfg st).1 = .returned (some err)
    ∧ (Generate sys heap x cfg st).2.files = st.files
    ∧ (Generate sys heap x cfg st).2.writes = st.writes := by
  have hJob : renderJob sys (heap.read x.FuncMaps) st.files
      (columnDefsToTemplateParam sys.tableOrder columnDefs) job =
      .error (.returned (some err)) := by
    rcases hFail with h | ⟨dat, buf, h1, h2, h3⟩
    · simp only [renderJob, h]
    · simp only [renderJob, h1, h2, h3]
  rw [Generate_of_job_error sys heap x cfg st columnDefs pre job post _ hConn hQuery hJobs
    hPre hJob]
  exact ⟨rfl, rfl, rfl⟩

/-- The witness of C3: two jobs, the template of the second does not exist. -/
theorem failed_job_writes_nothing_witness :
    (Generate demoSystem (initialState []) ⟨defaultFuncMapRef⟩
        (demoConfig [⟨"a.tmpl", "a.out"⟩, ⟨"missing.tmpl", "b.out"⟩]) demoState).1 =
      .returned (some ⟨"no such file or directory"⟩)
    ∧ (Generate demoSystem (initialState []) ⟨defaultFuncMapRef⟩
        (demoConfig [⟨"a.tmpl", "a.out"⟩, ⟨"missing.tmpl", "b.out"⟩]) demoState).2.files =
      demoFiles
    ∧ (Generate demoSystem (initialState []) ⟨defaultFuncMapRef⟩
        (demoConfig [⟨"a.tmpl", "a.out"⟩, ⟨"missing.tmpl", "b.out"⟩]) demoState).2.writes =
      [] :=
  failed_job_writes_nothing demoSystem (initialState []) ⟨defaultFuncMapRef⟩
    (demoConfig [⟨"a.tmpl", "a.out"⟩, ⟨"missing.tmpl", "b.out"⟩]) demoState demoRows
    [⟨"a.tmpl", "a.out"⟩] ⟨"missing.tmpl", "b.out"⟩ [] ⟨"no such file or directory"⟩
    rfl rfl rfl
    (by
      intro j hj
      rw [List.mem_singleton] at hj
      subst hj
      exact ⟨[65, 32, 9, 66], rfl⟩)
    (Or.inl rfl)

/-- C4, as the code has it: when the jobs before a job render and that job's
template is read but does not parse, `Generate` panics with the parse error
instead of returning it; the files are what they were and no call of
`os.WriteFile` was made. -/
theorem malformed_template_panics (sys : System) (heap : GoState) (x : Generator)
    (cfg : Config) (st : FileState) (columnDefs : List GetColumnDefinitionsRow)
    (pre : List TemplateConfig) (job : TemplateConfig) (post : List TemplateConfig)
    (dat : List Nat) (err : GoError)
    (hConn : sys.connect cfg.DbConfig = none)
    (hQuery : sys.getColumnDefinitions cfg.TargetSchema = .ok columnDefs)
    (hJobs : cfg.TemplateConfigs = pre ++ job :: post)
    (hPre : ∀ j ∈ pre, ∃ ret, renderJob sys (heap.read x.FuncMaps) st.files
      (columnDefsToTemplateParam sys.tableOrder columnDefs) j = .ok ret)
    (hRead : st.files job.TemplatePath = .ok dat)
    (hParse : sys.parse (heap.read x.FuncMaps) job.TemplatePath dat = some err) :
    (Generate sys heap x cfg st).1 = .panicked err
    ∧ (Generate sys heap x cfg st).2.files = st.files
    ∧ (Generate sys heap x cfg st).2.writes = st.writes := by
  have hJob : renderJob sys (heap.read x.FuncMaps) st.files
      (columnDefsToTemplateParam sys.tableOrder columnDefs) job =
      .error (.panicked err) := by
    simp only [renderJob, hRead, hParse]
  rw [Generate_of_job_error sys heap x cfg st columnDefs pre job post _ hConn hQuery hJobs
    hPre hJob]
  exact ⟨rfl, rfl, rfl⟩

/-- The witness of the amended C4: the malformed template of the examples
after a template that renders. -/
theorem malformed_template_panics_witness :
    (Generate demoSystem (initialState []) ⟨defaultFuncMapRef⟩
        (demoConfig [⟨"a.tmpl", "a.out"⟩, ⟨"bad.tmpl", "b.out"⟩]) demoState).1 =
      .panicked ⟨"template: unclosed action"⟩
    ∧ (Generate demoSystem (initialState []) ⟨defaultFuncMapRef⟩
        (demoConfig [⟨"a.tmpl", "a.out"⟩, ⟨"bad.tmpl", "b.out"⟩]) demoState).2.files =
      demoFiles
    ∧ (Generate demoSystem (initialState []) ⟨defaultFuncMapRef⟩
        (demoConfig [⟨"a.tmpl", "a.out"⟩, ⟨"bad.tmpl", "b.out"⟩]) demoState).2.writes =
      [] :=
  malformed_template_panics demoSystem (initialState []) ⟨defaultFuncMapRef⟩
    (demoConfig [⟨"a.tmpl", "a.out"⟩, ⟨"bad.tmpl", "b.out"⟩]) demoState demoRows
    [⟨"a.tmpl", "a.out"⟩] ⟨"bad.tmpl", "b.out"⟩ [] [123, 123] ⟨"template: unclosed action"⟩
    rfl rfl rfl
    (by
      intro j hj
      rw [List.mem_singleton] at hj
      subst hj
      exact ⟨[65, 32, 9, 66], rfl⟩)
    rfl rfl

/-- C4 as stated fails: for the single job with the malformed template of the
examples, parsing fails and `Generate` does not return an error value; it
panics. -/
theorem malformed_template_not_returned :
    demoSystem.parse ((initialState []).read defaultFuncMapRef) "bad.tmpl" [123, 123] =
      some ⟨"template: unclosed action"⟩
    ∧ demoFiles "bad.tmpl" = .ok [123, 123]
    ∧ (Generate demoSystem (initialState []) ⟨defaultFuncMapRef⟩
        (demoConfig [⟨"bad.tmpl", "b.out"⟩]) demoState).1 =
      .panicked ⟨"template: unclosed action"⟩
    ∧ ¬ ∃ err, (Generate demoSystem (initialState []) ⟨defaultFuncMapRef⟩
        (demoConfig [⟨"bad.tmpl", "b.out"⟩]) demoState).1 = .returned err := by
  have h : (Generate demoSystem (initialState []) ⟨defaultFuncMapRef⟩
        (demoConfig [⟨"bad.tmpl", "b.out"⟩]) demoState).1 =
      .panicked ⟨"template: unclosed action"⟩ := by decide
  refine ⟨rfl, rfl, h, ?_⟩
  rintro ⟨err, herr⟩
  rw [h] at herr
  cases herr

/-- C5, as the code has it: when every job renders, the writes of the stored
results succeed and different output path strings name different files,
`Generate` returns nil; the output path of every job holds the trimmed
rendering of the last job in the list that names it, a path that names none of
the output files reads as before, and the calls of `os.WriteFile` are one per
output path, each with the rendering of the last job for its path and the
permission bits 0644. -/
theorem last_job_for_a_path_wins (sys : System) (heap : GoState) (x : Generator)
    (cfg : Config) (st : FileState) (columnDefs : List GetColumnDefinitionsRow)
    (hConn : sys.connect cfg.DbConfig = none)
    (hQuery : sys.getColumnDefinitions cfg.TargetSchema = .ok columnDefs)
    (hOrder : IsRangeOrder sys.resultOrder)
    (hAll : ∀ j ∈ cfg.TemplateConfigs, ∃ ret, renderJob sys (heap.read x.FuncMaps) st.files
      (columnDefsToTemplateParam sys.tableOrder columnDefs) j = .ok ret)
    (hWrite : ∀ p j ret, lastJobFor cfg.TemplateConfigs p = some j →
      renderJob sys (heap.read x.FuncMaps) st.files
        (columnDefsToTemplateParam sys.tableOrder columnDefs) j = .ok ret →
      sys.writeFault p ret = none)
    (hFiles : ∀ j ∈ cfg.TemplateConfigs, ∀ i ∈ cfg.TemplateConfigs,
      sys.fileOf j.OutputPath = sys.fileOf i.OutputPath → j.OutputPath = i.OutputPath) :
    (Generate sys heap x cfg st).1 = .returned none
    ∧ (∀ p j ret, lastJobFor cfg.TemplateConfigs p = some j →
        renderJob sys (heap.read x.FuncMaps) st.files
          (columnDefsToTemplateParam sys.tableOrder columnDefs) j = .ok ret →
        (Generate sys heap x cfg st).2.files p = .ok ret)
    ∧ (∀ p, (∀ j ∈ cfg.TemplateConfigs, sys.fileOf j.OutputPath ≠ sys.fileOf p) →
        (Generate sys heap x cfg st).2.files p = st.files p)
    ∧ ∃ ws : List (String × List Nat × Nat),
        (Generate sys heap x cfg st).2.writes = st.writes ++ ws
        ∧ (ws.map (fun w => w.1)).Nodup
        ∧ (ws.map (fun w => sys.fileOf w.1)).Nodup
        ∧ (∀ j ∈ cfg.TemplateConfigs, j.OutputPath ∈ ws.map (fun w => w.1))
        ∧ (∀ w ∈ ws, w.2.2 = 0o644 ∧
            ∃ j, lastJobFor cfg.TemplateConfigs w.1 = some j ∧
              renderJob sys (heap.read x.FuncMaps) st.files
                (columnDefsToTemplateParam sys.tableOrder columnDefs) j = .ok w.2.1) := by
  obtain ⟨out, hout, hwf, hget⟩ := renderLoop_ok sys (heap.read x.FuncMaps) st.files
    (columnDefsToTemplateParam sys.tableOrder columnDefs) cfg.TemplateConfigs hAll []
    (by simp [GoMap.WF])
  have hwf1 : (sys.resultOrder out).WF := rangeOrder_WF hOrder hwf
  -- membership in the ranged entries, in terms of the jobs
  have hmem : ∀ p d, (p, d) ∈ sys.resultOrder out ↔
      ∃ j, lastJobFor cfg.TemplateConfigs p = some j ∧
        renderJob sys (heap.read x.FuncMaps) st.files
          (columnDefsToTemplateParam sys.tableOrder columnDefs) j = .ok d := by
    intro p d
    rw [(hOrder out).mem_iff, GoMap.mem_iff_get? hwf, hget p]
    cases hl : lastJobFor cfg.TemplateConfigs p with
    | none => simp [GoMap.get?]
    | some j =>
      obtain ⟨ret, hret⟩ := hAll j (lastJobFor_mem hl).1
      simp [renderedBytes, hret]
  have hkey : ∀ e ∈ sys.resultOrder out, ∃ j ∈ cfg.TemplateConfigs, j.OutputPath = e.1 := by
    intro e he
    obtain ⟨j, hj, _⟩ := (hmem e.1 e.2).1 he
    exact ⟨j, (lastJobFor_mem hj).1, (lastJobFor_mem hj).2⟩
  have hfault : ∀ e ∈ sys.resultOrder out, sys.writeFault e.1 e.2 = none := by
    intro e he
    obtain ⟨j, hj, hr⟩ := (hmem e.1 e.2).1 he
    exact hWrite e.1 j e.2 hj hr
  -- the entries name pairwise different files
  have hnd : ((sys.resultOrder out).map (fun e => sys.fileOf e.1)).Nodup := by
    have h := List.Nodup.map_on (f := sys.fileOf) (l := (sys.resultOrder out).map Prod.fst)
      (by
        intro a ha b hb hab
        obtain ⟨ea, hea, rfl⟩ := List.mem_map.1 ha
        obtain ⟨eb, heb, rfl⟩ := List.mem_map.1 hb
        obtain ⟨ja, hja, hja2⟩ := hkey ea hea
        obtain ⟨jb, hjb, hjb2⟩ := hkey eb heb
        rw [← hja2, ← hjb2] at hab ⊢
        exact hFiles ja hja jb hjb hab)
      hwf1
    rw [List.map_map] at h
    exact h
  obtain ⟨h1, h2⟩ := writeLoop_writes sys (sys.resultOrder out) hfault st
  obtain ⟨h3, h4⟩ := writeLoop_files sys (sys.resultOrder out) hnd hfault st
  have hG : Generate sys heap x cfg st = writeLoop sys (sys.resultOrder out) st := by
    rw [Generate_eq sys heap x cfg st columnDefs hConn hQuery, hout]
  rw [hG]
  refine ⟨h1, ?_, ?_, ?_⟩
  · intro p j ret hj hr
    exact h3 p p ret ((hmem p ret).2 ⟨j, hj, hr⟩) rfl
  · intro p hp
    apply h4
    intro hin
    obtain ⟨e, he, hpe⟩ := List.mem_map.1 hin
    obtain ⟨j, hj, hj2⟩ := hkey e he
    have hpe1 : sys.fileOf e.1 = sys.fileOf p := hpe
    rw [← hj2] at hpe1
    exact hp j hj hpe1
  · refine ⟨(sys.resultOrder out).map (fun e => (e.1, e.2, 0o644)), h2, ?_, ?_, ?_, ?_⟩
    · rw [List.map_map]
      exact hwf1
    · rw [List.map_map]
      exact hnd
    · intro j hj
      obtain ⟨i, hi⟩ := lastJobFor_isSome hj
      obtain ⟨ret, hret⟩ := hAll i (lastJobFor_mem hi).1
      rw [List.map_map]
      exact List.mem_map.2 ⟨(j.OutputPath, ret), (hmem _ _).2 ⟨i, hi, hret⟩, rfl⟩
    · intro w hw
      obtain ⟨e, he, rfl⟩ := List.mem_map.1 hw
      exact ⟨rfl, (hmem e.1 e.2).1 he⟩

/-- The witness of the amended C5: two jobs of the examples with the same
output path and a third with its own. -/
theorem last_job_for_a_path_wins_witness :
    (Generate demoSystem (initialState []) ⟨defaultFuncMapRef⟩
        (demoConfig [⟨"a.tmpl", "x.out"⟩, ⟨"c.tmpl", "x.out"⟩, ⟨"a.tmpl", "y.out"⟩])
        demoState).1 = .returned none
    ∧ (Generate demoSystem (initialState []) ⟨defaultFuncMapRef⟩
        (demoConfig [⟨"a.tmpl", "x.out"⟩, ⟨"c.tmpl", "x.out"⟩, ⟨"a.tmpl", "y.out"⟩])
        demoState).2.files "x.out" = .ok [67]
    ∧ (Generate demoSystem (initialState []) ⟨defaultFuncMapRef⟩
        (demoConfig [⟨"a.tmpl", "x.out"⟩, ⟨"c.tmpl", "x.out"⟩, ⟨"a.tmpl", "y.out"⟩])
        demoState).2.writes = [("y.out", [65, 32, 9, 66], 0o644), ("x.out", [67], 0o644)] :=
  have h := last_job_for_a_path_wins demoSystem (initialState []) ⟨defaultFuncMapRef⟩
    (demoConfig [⟨"a.tmpl", "x.out"⟩, ⟨"c.tmpl", "x.out"⟩, ⟨"a.tmpl", "y.out"⟩])
    demoState demoRows rfl rfl (fun m => List.reverse_perm m)
    (by
      intro j hj
      simp only [demoConfig, List.mem_cons, List.mem_singleton, List.not_mem_nil,
        or_false] at hj
      rcases hj with h | h | h
      · subst h; exact ⟨[65, 32, 9, 66], rfl⟩
      · subst h; exact ⟨[67], rfl⟩
      · subst h; exact ⟨[65, 32, 9, 66], rfl⟩)
    (fun _ _ _ _ _ => rfl)
    (by decide)
  ⟨h.1, h.2.1 "x.out" ⟨"c.tmpl", "x.out"⟩ [67] (by decide) rfl, by decide⟩

/-- C5 as stated fails: all jobs render and all writes succeed, the output
paths `x.out` and `./x.out` are distinct and name one file, and whichever of
the two entries of the result map is written last, that file ends with the
rendering of one job, so that one of the two paths does not hold the rendering
of the last job that names it. -/
theorem aliased_output_paths_not_last_job :
    lastJobFor [⟨"a.tmpl", "x.out"⟩, ⟨"c.tmpl", "./x.out"⟩] "x.out" =
      some ⟨"a.tmpl", "x.out"⟩
    ∧ lastJobFor [⟨"a.tmpl", "x.out"⟩, ⟨"c.tmpl", "./x.out"⟩] "./x.out" =
      some ⟨"c.tmpl", "./x.out"⟩
    ∧ renderJob demoSystem ((initialState []).read defaultFuncMapRef) demoState.files
        (columnDefsToTemplateParam demoSystem.tableOrder demoRows) ⟨"a.tmpl", "x.out"⟩ =
      .ok [65, 32, 9, 66]
    ∧ renderJob demoSystem ((initialState []).read defaultFuncMapRef) demoState.files
        (columnDefsToTemplateParam demoSystem.tableOrder demoRows) ⟨"c.tmpl", "./x.out"⟩ =
      .ok [67]
    ∧ (Generate demoSystem (initialState []) ⟨defaultFuncMapRef⟩
        (demoConfig [⟨"a.tmpl", "x.out"⟩, ⟨"c.tmpl", "./x.out"⟩]) demoState).1 =
      .returned none
    ∧ (Generate demoSystem (initialState []) ⟨defaultFuncMapRef⟩
        (demoConfig [⟨"a.tmpl", "x.out"⟩, ⟨"c.tmpl", "./x.out"⟩]) demoState).2.writes =
      [("./x.out", [67], 0o644), ("x.out", [65, 32, 9, 66], 0o644)]
    ∧ (Generate demoSystem (initialState []) ⟨defaultFuncMapRef⟩
        (demoConfig [⟨"a.tmpl", "x.out"⟩, ⟨"c.tmpl", "./x.out"⟩]) demoState).2.files
        "./x.out" = .ok [65, 32, 9, 66]
    ∧ (Generate demoSystem (initialState []) ⟨defaultFuncMapRef⟩
        (demoConfig [⟨"a.tmpl", "x.out"⟩, ⟨"c.tmpl", "./x.out"⟩]) demoState).2.files
        "./x.out" ≠ .ok [67]
    ∧ (Generate demoSystemForward (initialState []) ⟨defaultFuncMapRef⟩
        (demoConfig [⟨"a.tmpl", "x.out"⟩, ⟨"c.tmpl", "./x.out"⟩]) demoState).1 =
      .returned none
    ∧ (Generate demoSystemForward (initialState []) ⟨defaultFuncMapRef⟩
        (demoConfig [⟨"a.tmpl", "x.out"⟩, ⟨"c.tmpl", "./x.out"⟩]) demoState).2.writes =
      [("x.out", [65, 32, 9, 66], 0o644), ("./x.out", [67], 0o644)]
    ∧ (Generate demoSystemForward (initialState []) ⟨defaultFuncMapRef⟩
        (demoConfig [⟨"a.tmpl", "x.out"⟩, ⟨"c.tmpl", "./x.out"⟩]) demoState).2.files
        "x.out" = .ok [67]
    ∧ (Generate demoSystemForward (initialState []) ⟨defaultFuncMapRef⟩
        (demoConfig [⟨"a.tmpl", "x.out"⟩, ⟨"c.tmpl", "./x.out"⟩]) demoState).2.files
        "x.out" ≠ .ok [65, 32, 9, 66] := by
  have hrev : (Generate demoSystem (initialState []) ⟨defaultFuncMapRef⟩
        (demoConfig [⟨"a.tmpl", "x.out"⟩, ⟨"c.tmpl", "./x.out"⟩]) demoState).2.files
        "./x.out" = .ok [65, 32, 9, 66] := rfl
  have hfwd : (Generate demoSystemForward (initialState []) ⟨defaultFuncMapRef⟩
        (demoConfig [⟨"a.tmpl", "x.out"⟩, ⟨"c.tmpl", "./x.out"⟩]) demoState).2.files
        "x.out" = .ok [67] := rfl
  refine ⟨by decide, by decide, rfl, rfl, by decide, by decide, hrev, ?_, by decide,
    by decide, hfwd, ?_⟩
  · rw [hrev]
    intro h
    injection h with h
    exact absurd h (by decide)
  · rw [hfwd]
    intro h
    injection h with h
    exact absurd h (by decide)

/-! ### The helper registry -/

theorem GoMap.get?_perm {κ ν : Type} [DecidableEq κ] {l m : GoMap κ ν} (h : l.Perm m)
    (hm : m.WF) (k : κ) : l.get? k = m.get? k := by
  have hl : l.WF := ((h.map Prod.fst).nodup_iff).2 hm
  cases hc : m.get? k with
  | some v =>
    exact (GoMap.mem_iff_get? hl k v).1 (h.mem_iff.2 ((GoMap.mem_iff_get? hm k v).2 hc))
  | none =>
    rw [GoMap.get?_eq_none_iff] at hc ⊢
    intro hin
    exact hc ((h.map Prod.fst).mem_iff.1 hin)

theorem assignEntries_get? (entries : FuncMap) (hWF : GoMap.WF entries) (out : FuncMap)
    (k : String) :
    (assignEntries out entries).get? k =
      match entries.get? k with
      | some v => some v
      | none => out.get? k := by
  induction entries generalizing out with
  | nil => rfl
  | cons e rest ih =>
    obtain ⟨a, b⟩ := e
    have hnd := List.nodup_cons.1 hWF
    have hstep : assignEntries out ((a, b) :: rest) = assignEntries (out.set a b) rest := rfl
    rw [hstep, ih hnd.2]
    by_cases hak : a = k
    · subst hak
      have hnone : GoMap.get? rest a = none := (GoMap.get?_eq_none_iff rest a).2 hnd.1
      simp [GoMap.get?, hnone, GoMap.get?_set]
    · simp only [GoMap.get?, hak, if_false, GoMap.get?_set]

theorem assignEntries_WF (entries : FuncMap) (out : FuncMap) (hOut : GoMap.WF out) :
    GoMap.WF (assignEntries out entries) := by
  induction entries generalizing out with
  | nil => exact hOut
  | cons e rest ih => exact ih _ (GoMap.WF_set hOut _ _)

theorem assignLoop_spec (orders : Nat → FuncMap → FuncMap)
    (hOrders : ∀ n, IsRangeOrder (orders n)) (refs : List Nat) (st : GoState)
    (hWF : ∀ m ∈ st.maps, GoMap.WF m) (out : FuncMap) (hOut : GoMap.WF out) :
    (assignLoop orders refs st out).1.maps = st.maps
    ∧ GoMap.WF (assignLoop orders refs st out).2
    ∧ ∀ k, (assignLoop orders refs st out).2.get? k =
        mergedLookup (out.get? k) (refs.map st.read) k := by
  induction refs generalizing st out with
  | nil => exact ⟨rfl, hOut, fun k => rfl⟩
  | cons r rest ih =>
    have hread : GoMap.WF (st.read r) := by
      unfold GoState.read
      cases hg : st.maps.get? r with
      | none => simp [GoMap.WF]
      | some m => exact hWF m (List.get?_mem hg)
    have hord : GoMap.WF (orders st.ranges (st.read r)) := rangeOrder_WF (hOrders _) hread
    obtain ⟨h1, h2, h3⟩ := ih { st with ranges := st.ranges + 1 } hWF
      (assignEntries out (orders st.ranges (st.read r))) (assignEntries_WF _ _ hOut)
    refine ⟨h1, h2, ?_⟩
    intro k
    have hstep : assignLoop orders (r :: rest) st out =
        assignLoop orders rest { st with ranges := st.ranges + 1 }
          (assignEntries out (orders st.ranges (st.read r))) := rfl
    rw [hstep, h3 k, assignEntries_get? _ hord, GoMap.get?_perm (hOrders _ _) hread]
    rfl

/-- One application of a `WithFuncMap` option: the existing maps stay, the
generator points to a new map holding the merge. -/
theorem WithFuncMap_spec (orders : Nat → FuncMap → FuncMap)
    (hOrders : ∀ n, IsRangeOrder (orders n)) (st : GoState) (g : Generator) (funcMap : Nat)
    (hWF : ∀ m ∈ st.maps, GoMap.WF m) :
    (∃ m, (WithFuncMap funcMap orders st g).1.maps = st.maps ++ [m])
    ∧ (WithFuncMap funcMap orders st g).2.FuncMaps <
        (WithFuncMap funcMap orders st g).1.maps.length
    ∧ (∀ m ∈ (WithFuncMap funcMap orders st g).1.maps, GoMap.WF m)
    ∧ ∀ k, ((WithFuncMap funcMap orders st g).1.read
          (WithFuncMap funcMap orders st g).2.FuncMaps).get? k =
        match (st.read funcMap).get? k with
        | some v => some v
        | none => (st.read g.FuncMaps).get? k := by
  obtain ⟨h1, h2, h3⟩ := assignLoop_spec orders hOrders [g.FuncMaps, funcMap] st hWF []
    (by simp [GoMap.WF])
  have hmaps : (WithFuncMap funcMap orders st g).1.maps =
      st.maps ++ [(assignLoop orders [g.FuncMaps, funcMap] st []).2] := by
    simp only [WithFuncMap, loAssign, h1]
  have href : (WithFuncMap funcMap orders st g).2.FuncMaps = st.maps.length := by
    simp only [WithFuncMap, loAssign, h1]
  have hreadNew : (WithFuncMap funcMap orders st g).1.read
      (WithFuncMap funcMap orders st g).2.FuncMaps =
      (assignLoop orders [g.FuncMaps, funcMap] st []).2 := by
    rw [href]
    unfold GoState.read
    rw [hmaps]
    simp
  refine ⟨⟨_, hmaps⟩, ?_, ?_, ?_⟩
  · rw [href, hmaps]; simp
  · intro m hm
    rw [hmaps] at hm
    rcases List.mem_append.1 hm with h | h
    · exact hWF m h
    · rw [List.mem_singleton] at h
      rw [h]; exact h2
  · intro k
    rw [hreadNew, h3 k]
    simp only [mergedLookup, List.map_cons, List.map_nil, List.foldl_cons, List.foldl_nil,
      GoMap.get?]
    cases (st.read funcMap).get? k <;> cases (st.read g.FuncMaps).get? k <;> rfl

theorem NewGenerator_fold (orders : Nat → FuncMap → FuncMap)
    (hOrders : ∀ n, IsRangeOrder (orders n)) (st0 : GoState) (fms : List Nat)
    (hRefs : ∀ r ∈ fms, r < st0.maps.length)
    (st : GoState) (g : Generator)
    (hExt : ∃ extra, st.maps = st0.maps ++ extra)
    (hWF : ∀ m ∈ st.maps, GoMap.WF m) :
    (∃ extra, ((fms.map WithFuncMap).foldl (fun sg opt => opt orders sg.1 sg.2) (st, g)).1.maps =
        st0.maps ++ extra)
    ∧ ∀ k, (((fms.map WithFuncMap).foldl (fun sg opt => opt orders sg.1 sg.2) (st, g)).1.read
          ((fms.map WithFuncMap).foldl (fun sg opt => opt orders sg.1 sg.2) (st, g)).2.FuncMaps).get? k
        = mergedLookup ((st.read g.FuncMaps).get? k) (fms.map st0.read) k := by
  induction fms generalizing st g with
  | nil => exact ⟨hExt, fun k => rfl⟩
  | cons r rest ih =>
    obtain ⟨⟨m, hm⟩, _, hwf', hget⟩ := WithFuncMap_spec orders hOrders st g r hWF
    obtain ⟨extra, hextra⟩ := hExt
    have hr : r < st0.maps.length := hRefs r (List.mem_cons_self _ _)
    have hext' : ∃ e, (WithFuncMap r orders st g).1.maps = st0.maps ++ e :=
      ⟨extra ++ [m], by rw [hm, hextra, List.append_assoc]⟩
    obtain ⟨h1, h2⟩ := ih (fun i hi => hRefs i (List.mem_cons_of_mem _ hi))
      (WithFuncMap r orders st g).1 (WithFuncMap r orders st g).2 hext' hwf'
    refine ⟨h1, ?_⟩
    intro k
    have hstep : ((r :: rest).map WithFuncMap).foldl (fun sg opt => opt orders sg.1 sg.2) (st, g)
        = (rest.map WithFuncMap).foldl (fun sg opt => opt orders sg.1 sg.2)
            ((WithFuncMap r orders st g).1, (WithFuncMap r orders st g).2) := rfl
    rw [hstep, h2 k, hget k]
    have hrd : st.read r = st0.read r := by
      unfold GoState.read
      rw [hextra]
      simp only [List.get?_eq_getElem?]
      rw [List.getElem?_append_left hr]
    rw [hrd]
    rfl

theorem mergedLookup_isSome_of_base (base : Option Helper) (maps : List FuncMap) (k : String)
    (h : base.isSome) : (mergedLookup base maps k).isSome := by
  induction maps generalizing base with
  | nil => exact h
  | cons m rest ih =>
    have hstep : mergedLookup base (m :: rest) k =
        mergedLookup (match m.get? k with
          | some v => some v
          | none => base) rest k := rfl
    rw [hstep]
    apply ih
    cases m.get? k with
    | some v => rfl
    | none => exact h

theorem mergedLookup_isSome_of_mem (base : Option Helper) (maps : List FuncMap) (k : String)
    (m : FuncMap) (hm : m ∈ maps) (h : (m.get? k).isSome) :
    (mergedLookup base maps k).isSome := by
  induction maps generalizing base with
  | nil => cases hm
  | cons m' rest ih =>
    have hstep : mergedLookup base (m' :: rest) k =
        mergedLookup (match m'.get? k with
          | some v => some v
          | none => base) rest k := rfl
    rw [hstep]
    rcases List.mem_cons.1 hm with h' | h'
    · subst h'
      apply mergedLookup_isSome_of_base
      cases hc : m.get? k with
      | some v => rfl
      | none => rw [hc] at h; cases h
    · exact ih _ h'

/-- C10: `NewGenerator` with `WithFuncMap` options merges into new maps: the
generator's registry holds, for every key, the entry of the last supplied map
that has the key and otherwise the default entry; so it has the three default
keys and every supplied key.  Every map that existed before the call, the
default registry among them, is unchanged; without options the registry is the
three default helpers. -/
theorem NewGenerator_registry_is_merge (orders : Nat → FuncMap → FuncMap)
    (hOrders : ∀ n, IsRangeOrder (orders n)) (others : List FuncMap)
    (hWF : ∀ m ∈ others, GoMap.WF m) (fms : List Nat)
    (hRefs : ∀ r ∈ fms, r < (initialState others).maps.length) :
    (∀ k, ((NewGenerator orders (initialState others) (fms.map WithFuncMap)).1.read
          (NewGenerator orders (initialState others) (fms.map WithFuncMap)).2.FuncMaps).get? k =
        mergedLookup (defaultFuncMap.get? k) (fms.map (initialState others).read) k)
    ∧ (∀ k ∈ ["ToUpper", "FirstUpper", "AddNum"],
        (((NewGenerator orders (initialState others) (fms.map WithFuncMap)).1.read
          (NewGenerator orders (initialState others) (fms.map WithFuncMap)).2.FuncMaps).get?
            k).isSome)
    ∧ (∀ r ∈ fms, ∀ k, (((initialState others).read r).get? k).isSome →
        (((NewGenerator orders (initialState others) (fms.map WithFuncMap)).1.read
          (NewGenerator orders (initialState others) (fms.map WithFuncMap)).2.FuncMaps).get?
            k).isSome)
    ∧ (∀ init f k v, fms = init ++ [f] → ((initialState others).read f).get? k = some v →
        ((NewGenerator orders (initialState others) (fms.map WithFuncMap)).1.read
          (NewGenerator orders (initialState others) (fms.map WithFuncMap)).2.FuncMaps).get? k =
          some v)
    ∧ (∀ ref, ref < (initialState others).maps.length →
        (NewGenerator orders (initialState others) (fms.map WithFuncMap)).1.read ref =
          (initialState others).read ref)
    ∧ (NewGenerator orders (initialState others) (fms.map WithFuncMap)).1.read
        defaultFuncMapRef = defaultFuncMap
    ∧ (NewGenerator orders (initialState others) []).1.read
        (NewGenerator orders (initialState others) []).2.FuncMaps = defaultFuncMap := by
  have hWF0 : ∀ m ∈ (initialState others).maps, GoMap.WF m := by
    intro m hm
    rcases List.mem_cons.1 hm with h | h
    · rw [h]
      unfold GoMap.WF
      decide
    · exact hWF m h
  obtain ⟨⟨extra, hext⟩, hget⟩ := NewGenerator_fold orders hOrders (initialState others) fms
    hRefs (initialState others) ⟨defaultFuncMapRef⟩ ⟨[], by simp⟩ hWF0
  have hget' : ∀ k, ((NewGenerator orders (initialState others) (fms.map WithFuncMap)).1.read
          (NewGenerator orders (initialState others) (fms.map WithFuncMap)).2.FuncMaps).get? k =
        mergedLookup (defaultFuncMap.get? k) (fms.map (initialState others).read) k :=
    fun k => hget k
  have hframe : ∀ ref, ref < (initialState others).maps.length →
        (NewGenerator orders (initialState others) (fms.map WithFuncMap)).1.read ref =
          (initialState others).read ref := by
    intro ref href
    have hm : (NewGenerator orders (initialState others) (fms.map WithFuncMap)).1.maps =
        (initialState others).maps ++ extra := hext
    unfold GoState.read
    rw [hm]
    simp only [List.get?_eq_getElem?]
    rw [List.getElem?_append_left href]
  refine ⟨hget', ?_, ?_, ?_, hframe, ?_, rfl⟩
  · intro k hk
    rw [hget' k]
    apply mergedLookup_isSome_of_base
    simp only [List.mem_cons, List.mem_singleton, List.not_mem_nil, or_false] at hk
    rcases hk with h | h | h <;> subst h <;> decide
  · intro r hr k hk
    rw [hget' k]
    exact mergedLookup_isSome_of_mem _ _ k _ (List.mem_map_of_mem _ hr) hk
  · intro init f k v hf hv
    rw [hget' k, hf]
    simp only [mergedLookup, List.map_append, List.map_cons, List.map_nil, List.foldl_append,
      List.foldl_cons, List.foldl_nil, hv]
  · exact hframe defaultFuncMapRef (by simp [initialState, defaultFuncMapRef])

/-- The witness of C10: one supplied map that redefines `ToUpper` and adds
`Join`, ranged over in reverse. -/
theorem NewGenerator_registry_is_merge_witness :
    ((NewGenerator (fun _ m => m.reverse)
        (initialState [[("ToUpper", Helper.supplied 1), ("Join", Helper.supplied 2)]])
        ([1].map WithFuncMap)).1.read
      (NewGenerator (fun _ m => m.reverse)
        (initialState [[("ToUpper", Helper.supplied 1), ("Join", Helper.supplied 2)]])
        ([1].map WithFuncMap)).2.FuncMaps).get? "ToUpper" = some (Helper.supplied 1)
    ∧ (NewGenerator (fun _ m => m.reverse)
        (initialState [[("ToUpper", Helper.supplied 1), ("Join", Helper.supplied 2)]])
        ([1].map WithFuncMap)).1.read defaultFuncMapRef = defaultFuncMap :=
  have h := NewGenerator_registry_is_merge (fun _ m => m.reverse)
    (fun _ m => List.reverse_perm m)
    [[("ToUpper", Helper.supplied 1), ("Join", Helper.supplied 2)]]
    (by
      intro m hm
      rw [List.mem_singleton] at hm
      subst hm
      unfold GoMap.WF
      decide)
    [1]
    (by
      intro r hr
      rw [List.mem_singleton] at hr
      subst hr
      decide)
  ⟨(h.1 "ToUpper").trans (by decide), h.2.2.2.2.2.1⟩

/-! ### strcase -/

theorem toNat_ofNat_byte (n : Nat) (h : n < 256) : (Char.ofNat n).toNat = n := by
  have hv : n.isValidChar := Or.inl (by omega)
  unfold Char.ofNat
  rw [dif_pos hv]
  simp only [Char.ofNatAux, Char.toNat, UInt32.toNat]
  show (UInt32.ofNat' n _).val.val = n
  rfl

theorem toCamelLoop_cons (hasAcronym : Bool) (v : Nat) (rest : List Nat) (i : Nat)
    (capNext prevIsCap : Bool) (n : List Nat) :
    toCamelLoop hasAcronym (v :: rest) i capNext prevIsCap n =
      if (decide (65 ≤ v ∧ v ≤ 90) || decide (97 ≤ v ∧ v ≤ 122)) = true then
        toCamelLoop hasAcronym rest (i + 1) false (decide (65 ≤ v ∧ v ≤ 90))
          (n ++ [caseByte hasAcronym v i capNext prevIsCap])
      else if 48 ≤ caseByte hasAcronym v i capNext prevIsCap
          ∧ caseByte hasAcronym v i capNext prevIsCap ≤ 57 then
        toCamelLoop hasAcronym rest (i + 1) true (decide (65 ≤ v ∧ v ≤ 90))
          (n ++ [caseByte hasAcronym v i capNext prevIsCap])
      else
        toCamelLoop hasAcronym rest (i + 1)
          (caseByte hasAcronym v i capNext prevIsCap == 95
            || caseByte hasAcronym v i capNext prevIsCap == 32
            || caseByte hasAcronym v i capNext prevIsCap == 45
            || caseByte hasAcronym v i capNext prevIsCap == 46)
          (decide (65 ≤ v ∧ v ≤ 90)) n := rfl

theorem toCamelLoop_acc (hasAcronym : Bool) (bs : List Nat) (i : Nat) (capNext prevIsCap : Bool)
    (n : List Nat) :
    toCamelLoop hasAcronym bs i capNext prevIsCap n =
      n ++ toCamelLoop hasAcronym bs i capNext prevIsCap [] := by
  induction bs generalizing i capNext prevIsCap n with
  | nil => simp [toCamelLoop]
  | cons v rest ih =>
    rw [toCamelLoop_cons, toCamelLoop_cons hasAcronym v rest i capNext prevIsCap []]
    by_cases h1 : (decide (65 ≤ v ∧ v ≤ 90) || decide (97 ≤ v ∧ v ≤ 122)) = true
    · rw [if_pos h1, if_pos h1, ih, ih _ _ _ ([] ++ _)]
      simp
    · rw [if_neg h1, if_neg h1]
      by_cases h2 : 48 ≤ caseByte hasAcronym v i capNext prevIsCap
          ∧ caseByte hasAcronym v i capNext prevIsCap ≤ 57
      · rw [if_pos h2, if_pos h2, ih, ih _ _ _ ([] ++ _)]
        simp
      · rw [if_neg h2, if_neg h2, ih]

theorem utf8EncodeChar_ascii (c : Char) (h : c.toNat < 128) : utf8EncodeChar c = [c.toNat] := by
  simp [utf8EncodeChar, h]

theorem isAlnumChar_lt (c : Char) (h : isAlnumChar c = true) : c.toNat < 128 := by
  simp only [isAlnumChar, isUpperChar, isLowerChar, isDigitChar, Bool.or_eq_true,
    decide_eq_true_eq] at h
  omega

theorem goBytes_alnum (cs : List Char) (h : ∀ c ∈ cs, isAlnumChar c = true) :
    cs.flatMap utf8EncodeChar = cs.map Char.toNat := by
  induction cs with
  | nil => rfl
  | cons c rest ih =>
    rw [List.flatMap_cons, List.map_cons,
      utf8EncodeChar_ascii c (isAlnumChar_lt c (h c (List.mem_cons_self _ _))),
      ih (fun d hd => h d (List.mem_cons_of_mem _ hd))]
    rfl

theorem camelChain_alnum (cs : List Char) (h : camelChain cs = true) :
    ∀ c ∈ cs, isAlnumChar c = true := by
  induction cs with
  | nil => intro c hc; cases hc
  | cons a rest ih =>
    cases rest with
    | nil =>
      intro c hc
      rw [List.mem_singleton] at hc
      subst hc
      simpa [camelChain] using h
    | cons d rest =>
      simp only [camelChain, Bool.and_eq_true] at h
      intro c hc
      rcases List.mem_cons.1 hc with h' | h'
      · subst h'; exact h.1.1.1
      · exact ih h.2 c h'

/-- The loop copies a `camelChain` whose first byte the state does not change. -/
theorem toCamelLoop_camelChain (cs : List Char) (hChain : camelChain cs = true)
    (i : Nat) (capNext prevIsCap : Bool)
    (hHead : ∀ c rest, cs = c :: rest →
      (capNext = true → isLowerChar c = false)
      ∧ (capNext = false → i = 0 → isUpperChar c = false)
      ∧ (capNext = false → prevIsCap = true → isUpperChar c = false)) :
    toCamelLoop false (cs.map Char.toNat) i capNext prevIsCap [] = cs.map Char.toNat := by
  induction cs generalizing i capNext prevIsCap with
  | nil => rfl
  | cons c rest ih =>
    obtain ⟨h1, h2, h3⟩ := hHead c rest rfl
    have hal : isAlnumChar c = true := camelChain_alnum _ hChain c (List.mem_cons_self _ _)
    have hrest : camelChain rest = true := by
      cases rest with
      | nil => rfl
      | cons d rest =>
        simp only [camelChain, Bool.and_eq_true] at hChain
        exact hChain.2
    -- the byte written for `c` is `c`
    have hv1 : caseByte false c.toNat i capNext prevIsCap = c.toNat := by
      unfold caseByte
      cases capNext with
      | true =>
        have := h1 rfl
        simp only [isLowerChar] at this
        simp [this]
      | false =>
        by_cases hi : i = 0
        · have := h2 rfl hi
          simp only [isUpperChar] at this
          simp [hi, this]
        · cases prevIsCap with
          | true =>
            have := h3 rfl rfl
            simp only [isUpperChar] at this
            simp [hi, this]
          | false => simp [hi]
    rw [List.map_cons, toCamelLoop_cons, hv1]
    by_cases hletter : (decide (65 ≤ c.toNat ∧ c.toNat ≤ 90) ||
        decide (97 ≤ c.toNat ∧ c.toNat ≤ 122)) = true
    · rw [if_pos hletter, toCamelLoop_acc]
      rw [ih hrest (i + 1) false (decide (65 ≤ c.toNat ∧ c.toNat ≤ 90))]
      · rfl
      · intro d rest' hd
        subst hd
        refine ⟨?_, ?_, ?_⟩
        · intro h; cases h
        · intro _ h; omega
        intro _ hp
        simp only [camelChain, Bool.and_eq_true, Bool.not_eq_true', Bool.and_eq_false_iff]
          at hChain
        rcases hChain.1.2 with h | h
        · simp only [isUpperChar] at h
          rw [h] at hp
          cases hp
        · exact h
    · rw [if_neg hletter]
      have hdigit : 48 ≤ c.toNat ∧ c.toNat ≤ 57 := by
        simp only [isAlnumChar, isUpperChar, isLowerChar, isDigitChar, Bool.or_eq_true,
          decide_eq_true_eq] at hal hletter
        omega
      rw [if_pos hdigit, toCamelLoop_acc]
      rw [ih hrest (i + 1) true (decide (65 ≤ c.toNat ∧ c.toNat ≤ 90))]
      · rfl
      · intro d rest' hd
        subst hd
        refine ⟨?_, ?_, ?_⟩
        · intro _
          simp only [camelChain, Bool.and_eq_true, Bool.not_eq_true', Bool.and_eq_false_iff]
            at hChain
          rcases hChain.1.1.2 with h | h
          · simp only [isDigitChar, decide_eq_false_iff_not] at h
            exact absurd hdigit h
          · exact h
        · intro h; cases h
        · intro h; cases h

theorem isAlnumChar_not_space (c : Char) (h : isAlnumChar c = true) :
    unicodeIsSpace c = false := by
  simp only [isAlnumChar, isUpperChar, isLowerChar, isDigitChar, Bool.or_eq_true,
    decide_eq_true_eq] at h
  have h255 : c.toNat ≤ 255 := by omega
  simp only [unicodeIsSpace, h255, if_true, Bool.or_eq_false_iff, beq_eq_false_iff_ne, ne_eq]
  omega

theorem trimSpace_alnum (cs : List Char) (h : ∀ c ∈ cs, isAlnumChar c = true) :
    ((cs.dropWhile unicodeIsSpace).reverse.dropWhile unicodeIsSpace).reverse = cs := by
  have hd : ∀ l : List Char, (∀ c ∈ l, isAlnumChar c = true) →
      l.dropWhile unicodeIsSpace = l := by
    intro l hl
    cases l with
    | nil => rfl
    | cons a t =>
      rw [List.dropWhile_cons, isAlnumChar_not_space a (hl a (List.mem_cons_self _ _))]
      rfl
  rw [hd cs h, hd cs.reverse (fun c hc => h c (List.mem_reverse.1 hc)), List.reverse_reverse]

theorem ToLowerCamel_of_isLowerCamel (s : String) (h : isLowerCamel s = true) :
    ToLowerCamel s = s := by
  obtain ⟨cs⟩ := s
  simp only [isLowerCamel, Bool.and_eq_true] at h
  obtain ⟨hChain, hHead⟩ := h
  have hal := camelChain_alnum cs hChain
  have htrim : stringsTrimSpace ⟨cs⟩ = ⟨cs⟩ := by
    unfold stringsTrimSpace
    rw [trimSpace_alnum cs hal]
  unfold ToLowerCamel toCamelInitCase
  simp only [htrim]
  split
  · rfl
  · simp only [uppercaseAcronym, GoMap.get?, Option.isSome_none, Option.getD_none, goBytes]
    rw [goBytes_alnum cs hal, toCamelLoop_camelChain cs hChain 0 false false]
    · unfold asciiString
      rw [List.map_map]
      congr 1
      conv_rhs => rw [← List.map_id cs]
      apply List.map_congr_left
      intro c _
      exact Char.ofNat_toNat c
    · intro c rest hc
      subst hc
      refine ⟨?_, ?_, ?_⟩
      · intro h; cases h
      · intro _ _; simpa using hHead
      · intro _ h; cases h

theorem caseByte_letter (hasAcronym : Bool) (v i : Nat) (capNext prevIsCap : Bool)
    (h : isLetterByte v = true) :
    isLetterByte (caseByte hasAcronym v i capNext prevIsCap) = true := by
  simp only [isLetterByte, Bool.or_eq_true, decide_eq_true_eq] at h ⊢
  unfold caseByte
  simp only
  split
  · split
    · rename_i h2
      simp only [decide_eq_true_eq] at h2
      omega
    · exact h
  · split
    · split
      · rename_i h2
        simp only [decide_eq_true_eq] at h2
        omega
      · exact h
    · split
      · rename_i h2
        simp only [Bool.and_eq_true, decide_eq_true_eq] at h2
        omega
      · exact h

theorem caseByte_not_letter (hasAcronym : Bool) (v i : Nat) (capNext prevIsCap : Bool)
    (h : isLetterByte v = false) :
    caseByte hasAcronym v i capNext prevIsCap = v := by
  simp only [isLetterByte, Bool.or_eq_false_iff, decide_eq_false_iff_not] at h
  unfold caseByte
  simp [h.1, h.2]

/-- The first byte the loop writes comes from the first letter or digit. -/
theorem toCamelLoop_head (hasAcronym : Bool) (bs : List Nat) (i : Nat)
    (capNext prevIsCap : Bool) :
    (bs.find? isAlnumByte = none → toCamelLoop hasAcronym bs i capNext prevIsCap [] = [])
    ∧ (∀ b, bs.find? isAlnumByte = some b →
        ∃ b1 tl, toCamelLoop hasAcronym bs i capNext prevIsCap [] = b1 :: tl ∧
          ((isLetterByte b = false ∧ b1 = b) ∨
            (isLetterByte b = true ∧ isLetterByte b1 = true))) := by
  induction bs generalizing i capNext prevIsCap with
  | nil =>
    exact ⟨fun _ => rfl, fun b hb => by simp at hb⟩
  | cons v rest ih =>
    rw [toCamelLoop_cons]
    by_cases hl : isLetterByte v = true
    · have hl' : (decide (65 ≤ v ∧ v ≤ 90) || decide (97 ≤ v ∧ v ≤ 122)) = true := hl
      have hal : isAlnumByte v = true := by simp [isAlnumByte, hl]
      rw [if_pos hl', toCamelLoop_acc]
      constructor
      · intro hnone
        simp [List.find?_cons, hal] at hnone
      · intro b hb
        simp only [List.find?_cons, hal, Option.some.injEq] at hb
        subst hb
        exact ⟨_, _, rfl, Or.inr ⟨hl, caseByte_letter _ _ _ _ _ hl⟩⟩
    · have hl0 : isLetterByte v = false := by simpa using hl
      have hl' : ¬ (decide (65 ≤ v ∧ v ≤ 90) || decide (97 ≤ v ∧ v ≤ 122)) = true := hl
      rw [if_neg hl', caseByte_not_letter _ _ _ _ _ hl0]
      by_cases hd : 48 ≤ v ∧ v ≤ 57
      · have hal : isAlnumByte v = true := by simp [isAlnumByte, hd]
        rw [if_pos hd, toCamelLoop_acc]
        constructor
        · intro hnone
          simp [List.find?_cons, hal] at hnone
        · intro b hb
          simp only [List.find?_cons, hal, Option.some.injEq] at hb
          subst hb
          exact ⟨_, _, rfl, Or.inl ⟨hl0, rfl⟩⟩
      · have hal : isAlnumByte v = false := by simp [isAlnumByte, hl0, hd]
        rw [if_neg hd]
        simp only [List.find?_cons, hal]
        exact ih _ _ _

theorem utf8EncodeChar_find (c : Char) :
    (utf8EncodeChar c).find? isAlnumByte = if isAlnumChar c then some c.toNat else none := by
  by_cases h : c.toNat < 128
  · rw [utf8EncodeChar_ascii c h]
    have : isAlnumByte c.toNat = isAlnumChar c := by
      simp [isAlnumByte, isLetterByte, isAlnumChar, isUpperChar, isLowerChar, isDigitChar]
    simp only [List.find?_cons, this, List.find?_nil]
    cases isAlnumChar c <;> rfl
  · have hc : isAlnumChar c = false := by
      cases hh : isAlnumChar c with
      | false => rfl
      | true => exact absurd (isAlnumChar_lt c hh) h
    rw [hc]
    simp only [Bool.false_eq_true, if_false]
    rw [List.find?_eq_none]
    intro b hb
    have hb128 : 128 ≤ b := by
      unfold utf8EncodeChar at hb
      simp only at hb
      split at hb
      · omega
      · split at hb
        · simp only [List.mem_cons, List.mem_singleton, List.not_mem_nil, or_false] at hb
          omega
        · split at hb
          · simp only [List.mem_cons, List.mem_singleton, List.not_mem_nil, or_false] at hb
            omega
          · simp only [List.mem_cons, List.mem_singleton, List.not_mem_nil, or_false] at hb
            omega
    simp only [isAlnumByte, isLetterByte, Bool.or_eq_true, decide_eq_true_eq]
    omega

theorem goBytes_find (cs : List Char) :
    (cs.flatMap utf8EncodeChar).find? isAlnumByte = (cs.find? isAlnumChar).map Char.toNat := by
  induction cs with
  | nil => rfl
  | cons c rest ih =>
    rw [List.flatMap_cons, List.find?_append, utf8EncodeChar_find, List.find?_cons]
    cases hc : isAlnumChar c with
    | true => rfl
    | false => simpa using ih

theorem find?_dropWhile_space (cs : List Char) :
    (cs.dropWhile unicodeIsSpace).find? isAlnumChar = cs.find? isAlnumChar := by
  induction cs with
  | nil => rfl
  | cons c rest ih =>
    rw [List.dropWhile_cons]
    cases hs : unicodeIsSpace c with
    | false => rfl
    | true =>
      have hc : isAlnumChar c = false := by
        cases hh : isAlnumChar c with
        | false => rfl
        | true => rw [isAlnumChar_not_space c hh] at hs; cases hs
      simp only [if_true, List.find?_cons, hc]
      exact ih

theorem find?_rdropWhile_space (cs : List Char) :
    (cs.rdropWhile unicodeIsSpace).find? isAlnumChar = cs.find? isAlnumChar := by
  have h := rdropWhile_append_rtakeWhile unicodeIsSpace cs
  have hnone : (cs.rtakeWhile unicodeIsSpace).find? isAlnumChar = none := by
    rw [List.find?_eq_none]
    intro c hc hal
    have := List.mem_rtakeWhile_imp hc
    rw [isAlnumChar_not_space c hal] at this
    cases this
  conv_rhs => rw [← h, List.find?_append, hnone]
  cases (cs.rdropWhile unicodeIsSpace).find? isAlnumChar <;> rfl

theorem firstAlnum_trimSpace (s : String) :
    firstAlnum (stringsTrimSpace s) = firstAlnum s := by
  unfold firstAlnum stringsTrimSpace
  have : ((s.data.dropWhile unicodeIsSpace).reverse.dropWhile unicodeIsSpace).reverse =
      (s.data.dropWhile unicodeIsSpace).rdropWhile unicodeIsSpace := rfl
  simp only [this, find?_rdropWhile_space, find?_dropWhile_space]

theorem titleLoop_head_letter (c : Char) (rest : List Char)
    (h : isLetterByte c.toNat = true) :
    ∃ c1 tl, titleLoop (c :: rest) false = c1 :: tl ∧ isUpperChar c1 = true := by
  simp only [isLetterByte, Bool.or_eq_true, decide_eq_true_eq] at h
  unfold titleLoop
  simp only [h, if_true, Bool.false_eq_true, if_false]
  refine ⟨_, _, rfl, ?_⟩
  by_cases hlow : 97 ≤ c.toNat ∧ c.toNat ≤ 122
  · simp only [hlow, and_self, if_true, isUpperChar, decide_eq_true_eq]
    rw [toNat_ofNat_byte _ (by omega)]
    omega
  · simp only [hlow, if_false, isUpperChar, decide_eq_true_eq]
    omega

theorem titleLoop_head_digit (c : Char) (rest : List Char)
    (h : 48 ≤ c.toNat ∧ c.toNat ≤ 57) (m : Bool) :
    ∃ tl, titleLoop (c :: rest) m = c :: tl := by
  unfold titleLoop
  have h1 : ¬ ((65 ≤ c.toNat ∧ c.toNat ≤ 90) ∨ (97 ≤ c.toNat ∧ c.toNat ≤ 122)) := by omega
  simp only [h1, if_false, h, and_self, true_or, if_true]
  exact ⟨_, rfl⟩

/-- Every byte the loop writes is an ASCII letter or digit. -/
theorem toCamelLoop_alnum (hasAcronym : Bool) (bs : List Nat) (i : Nat)
    (capNext prevIsCap : Bool) :
    ∀ b ∈ toCamelLoop hasAcronym bs i capNext prevIsCap [], isAlnumByte b = true := by
  induction bs generalizing i capNext prevIsCap with
  | nil => intro b hb; cases hb
  | cons v rest ih =>
    rw [toCamelLoop_cons]
    by_cases hl : isLetterByte v = true
    · have hl1 : (decide (65 ≤ v ∧ v ≤ 90) || decide (97 ≤ v ∧ v ≤ 122)) = true := hl
      rw [if_pos hl1, toCamelLoop_acc]
      intro b hb
      rcases List.mem_append.1 hb with h | h
      · simp only [List.nil_append, List.mem_singleton] at h
        subst h
        simp [isAlnumByte, caseByte_letter _ _ _ _ _ hl]
      · exact ih _ _ _ b h
    · have hl1 : ¬ (decide (65 ≤ v ∧ v ≤ 90) || decide (97 ≤ v ∧ v ≤ 122)) = true := hl
      rw [if_neg hl1]
      by_cases hd : 48 ≤ caseByte hasAcronym v i capNext prevIsCap
          ∧ caseByte hasAcronym v i capNext prevIsCap ≤ 57
      · rw [if_pos hd, toCamelLoop_acc]
        intro b hb
        rcases List.mem_append.1 hb with h | h
        · simp only [List.nil_append, List.mem_singleton] at h
          subst h
          simp [isAlnumByte, hd]
        · exact ih _ _ _ b h
      · rw [if_neg hd]
        exact ih _ _ _

/-- The strings `ToCamel` returns hold ASCII letters and digits only, the
strings for which `titleLoop` is the title caser. -/
theorem ToCamel_alnum (s : String) : ∀ c ∈ (ToCamel s).data, isAlnumChar c = true := by
  unfold ToCamel toCamelInitCase
  simp only
  by_cases hempty : stringsTrimSpace s = ""
  · rw [if_pos hempty, hempty]
    intro c hc
    cases hc
  · rw [if_neg hempty]
    intro c hc
    simp only [asciiString, List.mem_map] at hc
    obtain ⟨b, hb, rfl⟩ := hc
    have hal := toCamelLoop_alnum _ _ _ _ _ b hb
    simp only [isAlnumByte, isLetterByte, Bool.or_eq_true, decide_eq_true_eq] at hal
    have hlt : b < 256 := by omega
    simp only [isAlnumChar, isUpperChar, isLowerChar, isDigitChar, toNat_ofNat_byte b hlt,
      Bool.or_eq_true, decide_eq_true_eq]
    omega

/-- When `TableNameCamelFU` starts with an upper-case letter. -/
theorem startsWithUpper_title_ToCamel (name : String) :
    startsWithUpper (caserTitleNoLower (ToCamel name)) = true ↔
      ∃ c, firstAlnum name = some c ∧ (isUpperChar c || isLowerChar c) = true := by
  unfold ToCamel toCamelInitCase
  simp only
  by_cases hempty : stringsTrimSpace name = ""
  · rw [if_pos hempty, hempty]
    have hfa : firstAlnum name = none := by
      rw [← firstAlnum_trimSpace, hempty]
      rfl
    rw [hfa]
    constructor
    · intro h; cases h
    · rintro ⟨c, hc, _⟩; cases hc
  · rw [if_neg hempty]
    simp only [uppercaseAcronym, GoMap.get?, Option.isSome_none, Option.getD_none, goBytes]
    have hfind := goBytes_find (stringsTrimSpace name).data
    have hfa : (stringsTrimSpace name).data.find? isAlnumChar = firstAlnum name :=
      firstAlnum_trimSpace name
    rw [hfa] at hfind
    obtain ⟨hnone, hsome⟩ := toCamelLoop_head false
      ((stringsTrimSpace name).data.flatMap utf8EncodeChar) 0 true false
    cases hf : firstAlnum name with
    | none =>
      rw [hf] at hfind
      rw [hnone hfind]
      constructor
      · intro h; cases h
      · rintro ⟨c, hc, _⟩; cases hc
    | some c =>
      rw [hf] at hfind
      obtain ⟨b1, tl, hout, hcase⟩ := hsome c.toNat hfind
      rw [hout]
      have hcal : isAlnumChar c = true := by
        have := List.find?_some hf
        exact this
      rcases hcase with ⟨hnl, hb1⟩ | ⟨hl, hl1⟩
      · -- a digit comes first
        subst hb1
        have hdig : 48 ≤ c.toNat ∧ c.toNat ≤ 57 := by
          simp only [isAlnumChar, isUpperChar, isLowerChar, isDigitChar, Bool.or_eq_true,
            decide_eq_true_eq] at hcal
          simp only [isLetterByte, Bool.or_eq_false_iff, decide_eq_false_iff_not] at hnl
          omega
        have hlet : (isUpperChar c || isLowerChar c) = false := by
          simp only [isUpperChar, isLowerChar, Bool.or_eq_false_iff, decide_eq_false_iff_not]
          omega
        obtain ⟨tl', htl⟩ := titleLoop_head_digit (Char.ofNat c.toNat)
          (tl.map Char.ofNat) (by rw [Char.ofNat_toNat]; exact hdig) false
        rw [Char.ofNat_toNat] at htl
        have hval : startsWithUpper (caserTitleNoLower (asciiString (c.toNat :: tl))) = false := by
          simp only [startsWithUpper, caserTitleNoLower, asciiString, List.map_cons,
            Char.ofNat_toNat, htl, isUpperChar, decide_eq_false_iff_not]
          omega
        rw [hval]
        constructor
        · intro h; cases h
        · rintro ⟨c', hc', hlc⟩
          cases hc'
          rw [hlet] at hlc
          cases hlc
      · have hb1lt : b1 < 256 := by
          simp only [isLetterByte, Bool.or_eq_true, decide_eq_true_eq] at hl1
          omega
        obtain ⟨c1, tl', htl, hup⟩ := titleLoop_head_letter (Char.ofNat b1)
          (tl.map Char.ofNat) (by rw [toNat_ofNat_byte b1 hb1lt]; exact hl1)
        have hval : startsWithUpper (caserTitleNoLower (asciiString (b1 :: tl))) = true := by
          simp only [startsWithUpper, caserTitleNoLower, asciiString, List.map_cons, htl, hup]
        rw [hval]
        constructor
        · intro _
          refine ⟨c, rfl, ?_⟩
          simpa [isLetterByte, isUpperChar, isLowerChar] using hl
        · intro _; rfl

/-- C6, as the code has it: the `TableNameCamelFU` of a table parameter starts
with an upper-case letter exactly when the first ASCII letter or digit of the
table name is a letter. -/
theorem tableNameCamelFU_starts_upper_iff
    (rangeOrder : GoMap String (List GetColumnDefinitionsRow) →
      GoMap String (List GetColumnDefinitionsRow))
    (columnDefs : List GetColumnDefinitionsRow) (t : TableParam)
    (ht : t ∈ (columnDefsToTemplateParam rangeOrder columnDefs).TableParams) :
    t.TableNameCamelFU = caserTitleNoLower (ToCamel t.TableName)
    ∧ (startsWithUpper t.TableNameCamelFU = true ↔
        ∃ c, firstAlnum t.TableName = some c ∧ (isUpperChar c || isLowerChar c) = true) := by
  rw [tableParams_eq] at ht
  obtain ⟨e, _, rfl⟩ := List.mem_map.1 ht
  exact ⟨rfl, startsWithUpper_title_ToCamel e.1⟩

/-- The witness of the amended C6: the table `users` of the examples. -/
theorem tableNameCamelFU_starts_upper_iff_witness :
    ("Users" : String) = caserTitleNoLower (ToCamel "users")
    ∧ (startsWithUpper "Users" = true ↔
        ∃ c, firstAlnum "users" = some c ∧ (isUpperChar c || isLowerChar c) = true) :=
  tableNameCamelFU_starts_upper_iff id demoRows
    { TableName := "users"
      TableNameCamelFU := "Users"
      Columns := [⟨"id", "id", "int4", false⟩, ⟨"full_name", "fullName", "text", true⟩] }
    (by decide)

/-- C6 as stated fails: the non-empty table names `1abc` and `_` give a
`TableNameCamelFU` that starts with a digit and one that is empty. -/
theorem tableNameCamelFU_not_upper :
    ("1abc" : String) ≠ ""
    ∧ (columnDefsToTemplateParam id [⟨"1abc", "id", "int4", false⟩]).TableParams.map
        (fun t => t.TableNameCamelFU) = ["1Abc"]
    ∧ startsWithUpper "1Abc" = false
    ∧ ("_" : String) ≠ ""
    ∧ (columnDefsToTemplateParam id [⟨"_", "id", "int4", false⟩]).TableParams.map
        (fun t => t.TableNameCamelFU) = [""]
    ∧ startsWithUpper "" = false := by
  decide

/-- C7, as the code has it: the camel name of a column depends on the column
name only, for every column name; and a column name that is already lower
camel case is its own camel name, so that deriving twice gives what deriving
once gives; `fullName` is such a name. -/
theorem columnNameCamel_fixes_lower_camel (r : GetColumnDefinitionsRow) (idx : Nat) :
    (∀ (q : GetColumnDefinitionsRow) (j : Nat), q.ColumnName = r.ColumnName →
        (columnParamOf q j).ColumnNameCamel = (columnParamOf r idx).ColumnNameCamel)
    ∧ (isLowerCamel r.ColumnName = true →
        (columnParamOf r idx).ColumnNameCamel = r.ColumnName
        ∧ ToLowerCamel (ToLowerCamel r.ColumnName) = ToLowerCamel r.ColumnName)
    ∧ ToLowerCamel "fullName" = "fullName" := by
  refine ⟨?_, ?_, by decide⟩
  · intro q j hq
    show ToLowerCamel q.ColumnName = ToLowerCamel r.ColumnName
    rw [hq]
  · intro h
    have hfix := ToLowerCamel_of_isLowerCamel r.ColumnName h
    exact ⟨hfix, by rw [hfix, hfix]⟩

/-- The witness of the amended C7: the column `fullName` maps to itself, and
two rows with the column name `full_name` get one camel name. -/
theorem columnNameCamel_fixes_lower_camel_witness :
    (columnParamOf ⟨"users", "fullName", "text", true⟩ 1).ColumnNameCamel = "fullName"
    ∧ ToLowerCamel (ToLowerCamel "fullName") = ToLowerCamel "fullName"
    ∧ (columnParamOf ⟨"orders", "full_name", "varchar", false⟩ 5).ColumnNameCamel =
        (columnParamOf ⟨"users", "full_name", "text", true⟩ 1).ColumnNameCamel :=
  ⟨((columnNameCamel_fixes_lower_camel ⟨"users", "fullName", "text", true⟩ 1).2.1
      (by decide)).1,
   ((columnNameCamel_fixes_lower_camel ⟨"users", "fullName", "text", true⟩ 1).2.1
      (by decide)).2,
   (columnNameCamel_fixes_lower_camel ⟨"users", "full_name", "text", true⟩ 1).1
      ⟨"orders", "full_name", "varchar", false⟩ 5 rfl⟩

/-- C7 as stated fails: for the column name `_abc` deriving twice does not
give what deriving once gives. -/
theorem columnNameCamel_not_idempotent :
    (columnParamOf ⟨"t", "_abc", "text", false⟩ 0).ColumnNameCamel = "Abc"
    ∧ ToLowerCamel "Abc" = "abc"
    ∧ ToLowerCamel (ToLowerCamel "_abc") ≠ ToLowerCamel "_abc" := by
  decide

end SqlcQueryGen
